import Mathlib

/-!
# Infix-to-postfix calculator (src/infixToPostfix.cpp)

A shallow embedding of the class `calculator`: the tokenizing constructor, the
converter `infixToPostfix`, the evaluator `evaluate` and the helpers they call.

* `std::string` is `String`, a `char` is a `Char`, `vector<string>` is `List String`.
* `stack<T>` is a `List T` whose head is the top of the stack.
* `int` is a 32-bit signed integer, carried as an `Int` between `INT_MIN` and `INT_MAX`.
* The C++ checks none of its preconditions. Reading or popping an empty stack, dividing by
  zero and leaving the range of `int` have no defined behaviour there; here each of them ends
  the run with a `Fault` that marks the event (`Fault.isUndefinedBehaviour`): it stands for
  no error that the program raises. The two exceptions thrown by `std::stoi` are faults as
  well.
* The loops over indices carry a bound on the number of rounds; the scanning loop of the
  constructor returns `none` if it has not ended within the bound, and `tokenizeLoop_append`
  shows that it always has.
-/

namespace calculator

/-- Ways in which a run of the program stops without a result. The first two are the
exceptions that `std::stoi` throws. The other three are no errors of the program: the source
raises none and checks nothing; they mark the point at which the run executes an operation
for which C++ defines no behaviour. -/
inductive Fault
  /-- `std::stoi` threw `std::invalid_argument`: the text does not start with a number. -/
  | invalid_argument
  /-- `std::stoi` threw `std::out_of_range`: the number does not fit in `int`. -/
  | out_of_range
  /-- Undefined behaviour: `top()` or `pop()` was called on an empty `std::stack`. -/
  | stackUnderflow
  /-- Undefined behaviour: `a / b` was computed with `b == 0`. -/
  | divisionByZero
  /-- Undefined behaviour: the result of an `int` operation does not fit in `int`. -/
  | overflow
  deriving DecidableEq, Repr

/-- The fault marks undefined behaviour of the C++ program, not an exception that it
throws. -/
def Fault.isUndefinedBehaviour : Fault → Bool
  | .invalid_argument => false
  | .out_of_range => false
  | .stackUnderflow => true
  | .divisionByZero => true
  | .overflow => true

deriving instance DecidableEq for Except

/-- Smallest value of `int`. -/
def INT_MIN : Int := -2147483648

/-- Largest value of `int`. -/
def INT_MAX : Int := 2147483647

/-- The integer `x` is a value of the type `int`. -/
def fitsInt (x : Int) : Prop := INT_MIN ≤ x ∧ x ≤ INT_MAX

instance (x : Int) : Decidable (fitsInt x) := by
  unfold fitsInt; exact inferInstance

/-- Result of an `int` operation whose mathematical value is `x`. -/
def intResult (x : Int) : Except Fault Int :=
  if fitsInt x then .ok x else .error .overflow

/-- `int Operation(int b, int a, string op)`: every `op` other than `+`, `-`, `*` divides. -/
def Operation (b a : Int) (op : String) : Except Fault Int :=
  if op = "+" then intResult (a + b)
  else if op = "-" then intResult (a - b)
  else if op = "*" then intResult (a * b)
  else if b = 0 then .error .divisionByZero
  else intResult (Int.tdiv a b)

/-- `int getOutPrecedence(string op)`. -/
def getOutPrecedence (op : String) : Int :=
  if op = "+" ∨ op = "-" then 1
  else if op = "(" then 5
  else if op = ")" then 0
  else 3

/-- `int getInPrecedence(string op)`. -/
def getInPrecedence (op : String) : Int :=
  if op = "+" ∨ op = "-" then 2
  else if op = "(" then 0
  else 4

/-- `bool isOperator(string op)`. -/
def isOperator (op : String) : Bool :=
  op = "+" ∨ op = "-" ∨ op = "*" ∨ op = "/" ∨ op = "(" ∨ op = ")"

/-- The characters of the six operator tokens. -/
def operatorChars : List Char := ['+', '-', '*', '/', '(', ')']

/-! ## The converter -/

/-- The loop
`while (!opStack.empty() and p(opStack.top())) { postFixToken.push_back(opStack.top()); opStack.pop(); }`
on the pair (operator stack, output). -/
def popWhile (p : String → Bool) : List String → List String → List String × List String
  | [], postFixToken => ([], postFixToken)
  | top :: rest, postFixToken =>
    if p top then popWhile p rest (postFixToken ++ [top]) else (top :: rest, postFixToken)

/-- Body of the loop `for (string s : token)` of `infixToPostfix`, on the state
(operator stack, output). -/
def convertStep (st : List String × List String) (s : String) :
    Except Fault (List String × List String) :=
  if isOperator s then
    if s = ")" then
      match popWhile (fun t => decide (getInPrecedence t > getOutPrecedence s)) st.1 st.2 with
      | ([], _) => .error .stackUnderflow
      | (_ :: rest, postFixToken) => .ok (rest, postFixToken)
    else
      match popWhile (fun t => decide (getInPrecedence t ≥ getOutPrecedence s)) st.1 st.2 with
      | (opStack, postFixToken) => .ok (s :: opStack, postFixToken)
  else
    .ok (st.1, st.2 ++ [s])

/-- The loop `for (string s : token)` of `infixToPostfix`, from a given state. -/
def convertLoop : List String → List String × List String →
    Except Fault (List String × List String)
  | [], st => .ok st
  | s :: rest, st =>
    match convertStep st s with
    | .ok st' => convertLoop rest st'
    | .error e => .error e

/-- `void infixToPostfix()`: from the member `token` to the member `postFixToken`
(empty before the call). -/
def infixToPostfix (token : List String) : Except Fault (List String) :=
  match convertLoop token ([], []) with
  | .ok (opStack, postFixToken) => .ok (popWhile (fun _ => true) opStack postFixToken).2
  | .error e => .error e

/-! ## The evaluator -/

/-- The C `isspace` in the default locale. -/
def isspace (c : Char) : Bool :=
  c = Char.ofNat 32 ∨ (9 ≤ c.toNat ∧ c.toNat ≤ 13)

/-- Value of a run of decimal digits, most significant first. -/
def digitsValue (ds : List Char) : Nat :=
  ds.foldl (fun v c => 10 * v + (c.toNat - 48)) 0

/-- The library function `std::stoi(s)` (base 10): skip leading white space, read an optional
sign and the longest run of digits after it, ignore what follows. No digit there throws
`std::invalid_argument`, a value outside `int` throws `std::out_of_range`. -/
def stoi (s : String) : Except Fault Int :=
  let signed : Bool × List Char :=
    match s.data.dropWhile isspace with
    | c :: r => if c = '-' then (true, r) else if c = '+' then (false, r) else (false, c :: r)
    | [] => (false, [])
  let ds := signed.2.takeWhile Char.isDigit
  if ds = [] then .error .invalid_argument
  else
    let v : Int := if signed.1 then -(digitsValue ds : Int) else (digitsValue ds : Int)
    if fitsInt v then .ok v else .error .out_of_range

/-- Body of the loop `for (string s : postFixToken)` of `evaluate`, on the operand stack. -/
def evaluateStep (opStack : List Int) (s : String) : Except Fault (List Int) :=
  if isOperator s then
    match opStack with
    | a :: b :: rest =>
      match Operation a b s with
      | .ok v => .ok (v :: rest)
      | .error e => .error e
    | _ => .error .stackUnderflow
  else
    match stoi s with
    | .ok v => .ok (v :: opStack)
    | .error e => .error e

/-- The loop `for (string s : postFixToken)` of `evaluate`, from a given operand stack. -/
def evaluateLoop : List String → List Int → Except Fault (List Int)
  | [], opStack => .ok opStack
  | s :: rest, opStack =>
    match evaluateStep opStack s with
    | .ok opStack' => evaluateLoop rest opStack'
    | .error e => .error e

/-- `int evaluate()`: the loop, then `return opStack.top()`. -/
def evaluate (postFixToken : List String) : Except Fault Int :=
  match evaluateLoop postFixToken [] with
  | .ok (v :: _) => .ok v
  | .ok [] => .error .stackUnderflow
  | .error e => .error e

/-! ## The tokenizing constructor -/

/-- The test `i < eqn.length()` for the `int` index `i`: the comparison is made in the unsigned
type of the length, where a negative `i` is larger than any length. -/
def inString (eqn : List Char) (i : Int) : Bool :=
  0 ≤ i ∧ i < (eqn.length : Int)

/-- The character `eqn[i]`. -/
def charAt (eqn : List Char) (i : Int) : Char :=
  eqn.getD i.toNat (Char.ofNat 0)

/-- The loop `while (i < eqn.length() and eqn[i] == ' ') i++;`, at most `fuel` rounds. A round
needs `i < eqn.length()` and raises `i`, so `eqn.length()` rounds are never exceeded. -/
def skipSpaces (eqn : List Char) : Nat → Int → Int
  | 0, i => i
  | fuel + 1, i =>
    if inString eqn i && charAt eqn i == ' ' then skipSpaces eqn fuel (i + 1) else i

/-- The loop
`while (i < eqn.length() and eqn[i] != ' ' and !isOperator(string(1, eqn[i]))) newToken += eqn[i++];`,
at most `fuel` rounds (`eqn.length()` are never exceeded); returns the index and the token. -/
def readOperand (eqn : List Char) : Nat → Int → String → Int × String
  | 0, i, newToken => (i, newToken)
  | fuel + 1, i, newToken =>
    if inString eqn i && charAt eqn i != ' ' && !isOperator (String.singleton (charAt eqn i)) then
      readOperand eqn fuel (i + 1) (newToken.push (charAt eqn i))
    else (i, newToken)

/-- One round of the loop `for (int i = 0; i < eqn.length(); i++)` of the constructor, entered
with `i < eqn.length()`: returns the index after the `i++` of the loop header and the tokens. -/
def tokenizeStep (eqn : List Char) (i : Int) (token : List String) : Int × List String :=
  let i1 := skipSpaces eqn eqn.length i
  let r : Int × String :=
    if inString eqn i1 && isOperator (String.singleton (charAt eqn i1)) then
      (i1, "".push (charAt eqn i1))
    else
      let r := readOperand eqn eqn.length i1 ""
      (r.1 - 1, r.2)
  (r.1 + 1, if r.2 ≠ "" then token ++ [r.2] else token)

/-- The loop `for (int i = 0; i < eqn.length(); i++)` of the constructor, at most `fuel`
rounds: `none` when the loop has not ended by then. -/
def tokenizeLoop (eqn : List Char) : Nat → Int → List String → Option (List String)
  | 0, i, token => if inString eqn i then none else some token
  | fuel + 1, i, token =>
    if inString eqn i then
      tokenizeLoop eqn fuel (tokenizeStep eqn i token).1 (tokenizeStep eqn i token).2
    else some token

/-- The tokenizing part of `calculator(string eqn)`: the member `token` after the loop. Every
round moves the index forward, so `eqn.length()` rounds are enough (`tokenizeLoop_fuel`). -/
def Tokenize (eqn : String) : Option (List String) :=
  tokenizeLoop eqn.data eqn.data.length 0 []

/-- The converter followed by the evaluator: `infixToPostfix()` as called at the end of the
constructor, then `evaluate()`. -/
def evaluateInfix (token : List String) : Except Fault Int :=
  match infixToPostfix token with
  | .ok postFixToken => evaluate postFixToken
  | .error e => .error e

/-- The call `calculator(eqn).Calculate()`: tokenize, convert, evaluate. -/
def Calculate (eqn : String) : Option (Except Fault Int) :=
  match Tokenize eqn with
  | none => none
  | some token => some (evaluateInfix token)

/-! ## Expressions, as the specification speaks of them -/

/-- The four binary operators. -/
inductive BinOp
  | add | sub | mul | div
  deriving DecidableEq, Repr

/-- The token of a binary operator. -/
def BinOp.token : BinOp → String
  | .add => "+"
  | .sub => "-"
  | .mul => "*"
  | .div => "/"

/-- The mathematical meaning of a binary operator, `/` truncating toward zero. -/
def BinOp.apply : BinOp → Int → Int → Int
  | .add, x, y => x + y
  | .sub, x, y => x - y
  | .mul, x, y => x * y
  | .div, x, y => Int.tdiv x y

/-- The operator is `+` or `-`. -/
def BinOp.additive : BinOp → Bool
  | .add => true
  | .sub => true
  | _ => false

/-- The token of an integer literal: its decimal text. -/
def literal (n : Int) : String := toString n

/-- An expression tree over integer literals and the four binary operators. -/
inductive Tree
  | lit (n : Int)
  | node (op : BinOp) (l r : Tree)
  deriving Repr

/-- The mathematical value of a tree. -/
def Tree.value : Tree → Int
  | .lit n => n
  | .node op l r => op.apply l.value r.value

/-- No division in the tree has a divisor of value zero. -/
def Tree.noZeroDivisor : Tree → Prop
  | .lit _ => True
  | .node op l r => l.noZeroDivisor ∧ r.noZeroDivisor ∧ (op = .div → r.value ≠ 0)

/-- Every literal and the value of every subtree is a value of `int`. -/
def Tree.fits : Tree → Prop
  | .lit n => fitsInt n
  | .node op l r => l.fits ∧ r.fits ∧ fitsInt (op.apply l.value r.value)

instance Tree.decidableNoZeroDivisor : (e : Tree) → Decidable e.noZeroDivisor
  | .lit _ => isTrue trivial
  | .node op l r =>
    have := Tree.decidableNoZeroDivisor l
    have := Tree.decidableNoZeroDivisor r
    inferInstanceAs (Decidable (l.noZeroDivisor ∧ r.noZeroDivisor ∧ (op = .div → r.value ≠ 0)))

instance Tree.decidableFits : (e : Tree) → Decidable e.fits
  | .lit n => inferInstanceAs (Decidable (fitsInt n))
  | .node op l r =>
    have := Tree.decidableFits l
    have := Tree.decidableFits r
    inferInstanceAs (Decidable (l.fits ∧ r.fits ∧ fitsInt (op.apply l.value r.value)))

/-- The fully parenthesized token sequence of a tree: every binary node is wrapped in
parentheses. -/
def Tree.tokens : Tree → List String
  | .lit n => [literal n]
  | .node op l r => "(" :: (l.tokens ++ op.token :: (r.tokens ++ [")"]))

/-- The postorder token sequence of a tree: left operand, right operand, operator. -/
def Tree.postorder : Tree → List String
  | .lit n => [literal n]
  | .node op l r => l.postorder ++ (r.postorder ++ [op.token])

/-! ## The scanning loop on lists of characters -/

/-- A character that continues an operand: neither a space nor an operator. -/
def isWordChar (c : Char) : Bool :=
  c != ' ' && !isOperator (String.singleton c)

/-- One round of the scanning loop on the unread part of the input: the token found, if any,
and what is left to read. -/
def nextToken (rest : List Char) : Option String × List Char :=
  match rest.dropWhile (fun c => c == ' ') with
  | [] => (none, [])
  | c :: r =>
    if isOperator (String.singleton c) then (some (String.singleton c), r)
    else (some (String.mk ((c :: r).takeWhile isWordChar)), (c :: r).dropWhile isWordChar)

/-- The scanning loop on the unread part of the input, at most `fuel` rounds. -/
def scan : Nat → List Char → List String
  | 0, _ => []
  | fuel + 1, rest =>
    if rest = [] then [] else (nextToken rest).1.toList ++ scan fuel (nextToken rest).2

/-- A token that is a non-empty string of digits. -/
def isDigitString (t : String) : Prop :=
  t.data ≠ [] ∧ ∀ c ∈ t.data, c.isDigit = true

/-- A sequence of tokens, each one operator character or a non-empty string of digits, in
which no two digit strings are adjacent. -/
def separable (toks : List String) : Prop :=
  (∀ t ∈ toks, isOperator t = true ∨ isDigitString t) ∧
  toks.Chain' (fun a b => isOperator a = true ∨ isOperator b = true)

/-- The tokens written one after another, each with its number of spaces in front, and
`trailing` spaces at the end. -/
def spaced : List (Nat × String) → Nat → List Char
  | [], trailing => List.replicate trailing ' '
  | (n, t) :: rest, trailing => List.replicate n ' ' ++ (t.data ++ spaced rest trailing)

/-- What is left to read after a token starts with a space or an operator character, or is
empty. -/
def startsWithDelimiter (l : List Char) : Prop :=
  ∀ c r, l = c :: r → isWordChar c = false

instance (t : String) : Decidable (isDigitString t) := by
  unfold isDigitString; exact inferInstance

/-- The text starts with a number as `std::stoi` reads one: after leading white space and an
optional sign comes a decimal digit. -/
def startsWithNumber (s : String) : Bool :=
  match s.data.dropWhile isspace with
  | c :: r =>
    if c = '-' ∨ c = '+' then
      match r with
      | d :: _ => d.isDigit
      | [] => false
    else c.isDigit
  | [] => false

/-- The token is an opening or a closing parenthesis. -/
def isParenthesis (t : String) : Bool :=
  t = "(" ∨ t = ")"

/-- A token sequence whose parentheses match: no prefix has more ) than (, and the whole
sequence has as many ) as (. -/
def properlyNested (token : List String) : Prop :=
  (∀ n, (token.take n).count ")" ≤ (token.take n).count "(") ∧
  token.count "(" = token.count ")"

/-- A state of the converter in which the operator stack holds operators other than ) and
the output holds no parenthesis. -/
def wellFormedState (st : List String × List String) : Prop :=
  (∀ t ∈ st.1, isOperator t = true ∧ t ≠ ")") ∧ (∀ t ∈ st.2, t ≠ "(" ∧ t ≠ ")")

/-- Derivations of the grammar
expr := term ((+|-) term)*, term := factor ((*|/) factor)*, factor := integer | ( expr ),
with the parentheses kept. An `unclosed` node is a parenthesis whose closing token is
missing; the grammar proper has none. -/
inductive Parse
  | lit (n : Int)
  | paren (e : Parse)
  | unclosed (e : Parse)
  | bin (op : BinOp) (l r : Parse)
  deriving Repr

/-- The derivation is one of the nonterminal of the given level, 0 for expr, 1 for term, 2
for factor: the right operand of + or - is a term, the operands of * and / are a term and a
factor, so that operators of one tier nest to the left. With `allowOpen` parentheses may
lack their closing token. -/
def Parse.derives (allowOpen : Bool) : Parse → Nat → Prop
  | .lit _, _ => True
  | .paren e, _ => e.derives allowOpen 0
  | .unclosed e, _ => allowOpen = true ∧ e.derives allowOpen 0
  | .bin op l r, level =>
    if op.additive then level = 0 ∧ l.derives allowOpen 0 ∧ r.derives allowOpen 1
    else level ≤ 1 ∧ l.derives allowOpen 1 ∧ r.derives allowOpen 2

/-- The token sequence that the derivation generates. -/
def Parse.tokens : Parse → List String
  | .lit n => [literal n]
  | .paren e => "(" :: (e.tokens ++ [")"])
  | .unclosed e => "(" :: e.tokens
  | .bin op l r => l.tokens ++ op.token :: r.tokens

/-- The parse tree of the derivation: the parentheses are dropped. -/
def Parse.tree : Parse → Tree
  | .lit n => .lit n
  | .paren e => e.tree
  | .unclosed e => e.tree
  | .bin op l r => .node op l.tree r.tree

/-- The number of parentheses of the derivation that lack their closing token. -/
def Parse.unclosedCount : Parse → Nat
  | .lit _ => 0
  | .paren e => e.unclosedCount
  | .unclosed e => e.unclosedCount + 1
  | .bin _ l r => l.unclosedCount + r.unclosedCount

/-- The out-of-stack precedence of the operators that may follow a derivation of the given
level: 1 after an expr, 3 after a term, 5, that of no operator, after a factor. -/
def levelPrecedence : Nat → Int
  | 0 => 1
  | 1 => 3
  | _ => 5

/-- The top of the stack, if there is one, has an in-stack precedence below `k`. -/
def lowHead (k : Int) (stack : List String) : Prop :=
  ∀ t rest, stack = t :: rest → getInPrecedence t < k

/-- The number that `std::stoi` reads at the start of the text: the value of the run of
digits after the leading white space and the optional sign, negated after a minus sign; what
follows the digits is ignored. -/
def leadingNumber (s : String) : Int :=
  match s.data.dropWhile isspace with
  | c :: r =>
    if c = '-' then -(digitsValue (r.takeWhile Char.isDigit) : Int)
    else if c = '+' then (digitsValue (r.takeWhile Char.isDigit) : Int)
    else (digitsValue ((c :: r).takeWhile Char.isDigit) : Int)
  | [] => 0

/-! ## Decimal text of a number -/

theorem digitChar_spec : ∀ d, d < 10 →
    (Nat.digitChar d).isDigit = true ∧ (Nat.digitChar d).toNat - 48 = d := by
  decide

theorem isDigit_toNat (c : Char) (h : c.isDigit = true) : 48 ≤ c.toNat ∧ c.toNat ≤ 57 := by
  simp only [Char.isDigit, Bool.and_eq_true, decide_eq_true_eq] at h
  obtain ⟨h1, h2⟩ := h
  have h1' : (48 : UInt32).toNat ≤ c.val.toNat := h1
  have h2' : c.val.toNat ≤ (57 : UInt32).toNat := h2
  exact ⟨h1', h2'⟩

theorem isspace_of_isDigit (c : Char) (h : c.isDigit = true) : isspace c = false := by
  have := isDigit_toNat c h
  simp only [isspace, Bool.decide_or, Bool.decide_and, Bool.or_eq_false_iff,
    decide_eq_false_iff_not, Bool.and_eq_false_iff]
  constructor
  · intro hc; subst hc; revert h; decide
  · omega

theorem digitsValue_append (xs : List Char) (c : Char) :
    digitsValue (xs ++ [c]) = 10 * digitsValue xs + (c.toNat - 48) := by
  simp [digitsValue, List.foldl_append]

theorem toDigitsCore_spec : ∀ (fuel n : Nat) (ds : List Char), n < fuel →
    ∃ pre, Nat.toDigitsCore 10 fuel n ds = pre ++ ds ∧ pre ≠ [] ∧
      (∀ c ∈ pre, c.isDigit = true) ∧ digitsValue pre = n := by
  intro fuel
  induction fuel with
  | zero => intro n ds h; omega
  | succ fuel ih =>
    intro n ds h
    have hd := digitChar_spec (n % 10) (Nat.mod_lt _ (by decide))
    simp only [Nat.toDigitsCore]
    by_cases h0 : n / 10 = 0
    · refine ⟨[Nat.digitChar (n % 10)], by simp [h0], by simp, by simpa using hd.1, ?_⟩
      simp only [digitsValue, List.foldl_cons, List.foldl_nil]
      omega
    · obtain ⟨pre, hpre, hne, hdig, hval⟩ :=
        ih (n / 10) (Nat.digitChar (n % 10) :: ds) (by omega)
      refine ⟨pre ++ [Nat.digitChar (n % 10)], by simp [h0, hpre], by simp, ?_, ?_⟩
      · intro c hc
        rcases List.mem_append.1 hc with hc | hc
        · exact hdig c hc
        · simp only [List.mem_singleton] at hc; subst hc; exact hd.1
      · rw [digitsValue_append, hval]; omega

/-- The decimal text of a natural number: a non-empty run of digits with that value. -/
theorem natRepr_spec (n : Nat) : ∃ c ds, (Nat.repr n).data = c :: ds ∧
    (∀ x ∈ c :: ds, x.isDigit = true) ∧ digitsValue (c :: ds) = n := by
  obtain ⟨pre, hpre, hne, hdig, hval⟩ := toDigitsCore_spec (n + 1) n [] (by omega)
  cases pre with
  | nil => exact absurd rfl hne
  | cons c ds =>
    refine ⟨c, ds, ?_, hdig, hval⟩
    simp only [Nat.repr, Nat.toDigits, List.asString, hpre, List.append_nil]

/-- The text of a literal: an optional minus sign, then a non-empty run of digits. -/
theorem literal_data (n : Int) : ∃ c ds, (∀ x ∈ c :: ds, x.isDigit = true) ∧
    digitsValue (c :: ds) = n.natAbs ∧
    (literal n).data = if n < 0 then '-' :: c :: ds else c :: ds := by
  cases n with
  | ofNat m =>
    obtain ⟨c, ds, h1, h2, h3⟩ := natRepr_spec m
    refine ⟨c, ds, h2, by simpa using h3, ?_⟩
    have : ¬ (Int.ofNat m < 0) := by simp
    rw [if_neg this]
    exact h1
  | negSucc m =>
    obtain ⟨c, ds, h1, h2, h3⟩ := natRepr_spec (m + 1)
    refine ⟨c, ds, h2, by simpa using h3, ?_⟩
    have : Int.negSucc m < 0 := Int.negSucc_lt_zero m
    rw [if_pos this]
    show ("-" ++ Nat.repr (m + 1)).data = _
    rw [String.data_append, h1]
    rfl

theorem isOperator_data (s : String) (h : isOperator s = true) :
    ∃ c, c ∈ operatorChars ∧ s.data = [c] := by
  simp only [isOperator, Bool.decide_or, Bool.or_eq_true, decide_eq_true_eq] at h
  rcases h with h | h | h | h | h | h <;> subst h <;> decide

theorem not_isDigit_of_mem_operatorChars : ∀ c ∈ operatorChars, c.isDigit = false := by
  decide

theorem isOperator_literal (n : Int) : isOperator (literal n) = false := by
  obtain ⟨c, ds, hdig, -, hdata⟩ := literal_data n
  by_contra hop
  obtain ⟨x, hx, hsx⟩ := isOperator_data _ (by simpa using hop)
  rw [hdata] at hsx
  split_ifs at hsx
  · simp at hsx
  · simp only [List.cons.injEq] at hsx
    have := not_isDigit_of_mem_operatorChars x hx
    rw [← hsx.1, hdig c (by simp)] at this
    exact absurd this (by simp)

theorem takeWhile_isDigit_self (ds : List Char) (h : ∀ x ∈ ds, x.isDigit = true) :
    ds.takeWhile Char.isDigit = ds :=
  List.takeWhile_eq_self_iff.2 h

/-- `std::stoi` reads a literal back when it fits in `int` and throws `std::out_of_range`
when it does not. -/
theorem stoi_literal (n : Int) :
    stoi (literal n) = if fitsInt n then .ok n else .error .out_of_range := by
  obtain ⟨c, ds, hdig, hval, hdata⟩ := literal_data n
  have hc := hdig c (by simp)
  have hsp := isspace_of_isDigit c hc
  have hminus : c ≠ '-' := by rintro rfl; revert hc; decide
  have hplus : c ≠ '+' := by rintro rfl; revert hc; decide
  have htake := takeWhile_isDigit_self (c :: ds) hdig
  unfold stoi
  rw [hdata]
  by_cases hn : n < 0
  · have hdrop : List.dropWhile isspace ('-' :: c :: ds) = '-' :: c :: ds := by
      rw [List.dropWhile_cons_of_neg (by decide)]
    have habs : -((n.natAbs : Nat) : Int) = n := by omega
    simp only [if_pos hn, hdrop, if_true, htake, hval, habs, reduceCtorEq, if_false]
  · have hdrop : List.dropWhile isspace (c :: ds) = c :: ds := by
      rw [List.dropWhile_cons_of_neg (by simp [hsp])]
    have habs : ((n.natAbs : Nat) : Int) = n := by omega
    simp only [if_neg hn, hdrop, if_neg hminus, if_neg hplus, htake, hval, habs, reduceCtorEq,
      if_false, Bool.false_eq_true]

/-! ## The converter and the evaluator on sequences put together -/

theorem convertLoop_append (xs ys : List String) (st : List String × List String) :
    convertLoop (xs ++ ys) st =
      match convertLoop xs st with
      | .ok st' => convertLoop ys st'
      | .error e => .error e := by
  induction xs generalizing st with
  | nil => rfl
  | cons x xs ih =>
    simp only [List.cons_append, convertLoop]
    cases convertStep st x with
    | ok st' => exact ih st'
    | error e => rfl

theorem evaluateLoop_append (xs ys : List String) (st : List Int) :
    evaluateLoop (xs ++ ys) st =
      match evaluateLoop xs st with
      | .ok st' => evaluateLoop ys st'
      | .error e => .error e := by
  induction xs generalizing st with
  | nil => rfl
  | cons x xs ih =>
    simp only [List.cons_append, evaluateLoop]
    cases evaluateStep st x with
    | ok st' => exact ih st'
    | error e => rfl

theorem popWhile_all (stack out : List String) :
    popWhile (fun _ => true) stack out = ([], out ++ stack) := by
  induction stack generalizing out with
  | nil => simp [popWhile]
  | cons t rest ih => simp [popWhile, ih]

theorem getInPrecedence_le (t : String) : getInPrecedence t ≤ 4 := by
  unfold getInPrecedence
  split_ifs <;> decide

theorem convertStep_literal (st : List String × List String) (n : Int) :
    convertStep st (literal n) = .ok (st.1, st.2 ++ [literal n]) := by
  simp [convertStep, isOperator_literal]

theorem convertStep_open (stack out : List String) :
    convertStep (stack, out) "(" = .ok ("(" :: stack, out) := by
  have hp : ∀ t, decide (getInPrecedence t ≥ getOutPrecedence "(") = false := by
    intro t
    have := getInPrecedence_le t
    have h5 : getOutPrecedence "(" = 5 := by decide
    rw [h5]
    simp only [ge_iff_le, decide_eq_false_iff_not]
    omega
  have hop : isOperator "(" = true := by decide
  have hne : ¬ ("(" = ")") := by decide
  simp only [convertStep, hop, if_true, hne, if_false]
  cases stack with
  | nil => rfl
  | cons t rest => simp only [popWhile, hp t, Bool.false_eq_true, if_false]

theorem convertStep_operator_on_open (op : BinOp) (stack out : List String) :
    convertStep ("(" :: stack, out) op.token = .ok (op.token :: "(" :: stack, out) := by
  cases op <;> rfl

theorem convertStep_close (op : BinOp) (stack out : List String) :
    convertStep (op.token :: "(" :: stack, out) ")" = .ok (stack, out ++ [op.token]) := by
  cases op <;> rfl

/-- The converter turns the fully parenthesized tokens of a tree into its postorder
sequence and leaves the operator stack as it found it. -/
theorem convertLoop_tokens (e : Tree) (stack out : List String) :
    convertLoop e.tokens (stack, out) = .ok (stack, out ++ e.postorder) := by
  induction e generalizing stack out with
  | lit n => simp [Tree.tokens, Tree.postorder, convertLoop, convertStep_literal]
  | node op l r ihl ihr =>
    rw [Tree.tokens, Tree.postorder]
    simp only [convertLoop, convertStep_open, convertLoop_append, ihl,
      convertStep_operator_on_open, ihr, convertStep_close, List.append_assoc]

theorem infixToPostfix_tokens (e : Tree) : infixToPostfix e.tokens = .ok e.postorder := by
  simp [infixToPostfix, convertLoop_tokens, popWhile_all]

theorem evaluateStep_literal (n : Int) (opStack : List Int) (h : fitsInt n) :
    evaluateStep opStack (literal n) = .ok (n :: opStack) := by
  simp [evaluateStep, isOperator_literal, stoi_literal, h]

theorem evaluateStep_literal_big (n : Int) (opStack : List Int) (h : ¬ fitsInt n) :
    evaluateStep opStack (literal n) = .error .out_of_range := by
  simp [evaluateStep, isOperator_literal, stoi_literal, h]

/-- An operator token combines the two topmost values, the lower one on the left. -/
theorem evaluateStep_operator (op : BinOp) (x y : Int) (opStack : List Int)
    (hz : op = .div → y ≠ 0) (hfit : fitsInt (op.apply x y)) :
    evaluateStep (y :: x :: opStack) op.token = .ok (op.apply x y :: opStack) := by
  cases op
  · have h : Operation y x "+" = .ok (x + y) := by
      simp only [Operation, intResult, if_true]
      exact if_pos hfit
    simp only [evaluateStep, BinOp.token, BinOp.apply, h]; rfl
  · have h : Operation y x "-" = .ok (x - y) := by
      have h1 : ¬ ("-" = "+") := by decide
      simp only [Operation, intResult, h1, if_false, if_true]
      exact if_pos hfit
    simp only [evaluateStep, BinOp.token, BinOp.apply, h]; rfl
  · have h : Operation y x "*" = .ok (x * y) := by
      have h1 : ¬ ("*" = "+") := by decide
      have h2 : ¬ ("*" = "-") := by decide
      simp only [Operation, intResult, h1, h2, if_false, if_true]
      exact if_pos hfit
    simp only [evaluateStep, BinOp.token, BinOp.apply, h]; rfl
  · have h : Operation y x "/" = .ok (Int.tdiv x y) := by
      have h1 : ¬ ("/" = "+") := by decide
      have h2 : ¬ ("/" = "-") := by decide
      have h3 : ¬ ("/" = "*") := by decide
      simp only [Operation, intResult, h1, h2, h3, if_false, if_neg (hz rfl)]
      exact if_pos hfit
    simp only [evaluateStep, BinOp.token, BinOp.apply, h]; rfl

/-- The evaluator on the postorder sequence of a tree pushes the value of the tree. -/
theorem evaluateLoop_postorder (e : Tree) (hz : e.noZeroDivisor) (hfit : e.fits)
    (rest : List String) (opStack : List Int) :
    evaluateLoop (e.postorder ++ rest) opStack = evaluateLoop rest (e.value :: opStack) := by
  induction e generalizing rest opStack with
  | lit n =>
    rw [Tree.postorder, Tree.value, List.singleton_append]
    simp only [evaluateLoop, evaluateStep_literal n opStack hfit]
  | node op l r ihl ihr =>
    obtain ⟨hzl, hzr, hzd⟩ := hz
    obtain ⟨hfl, hfr, hfv⟩ := hfit
    rw [Tree.postorder, Tree.value, List.append_assoc, ihl hzl hfl, List.append_assoc,
      ihr hzr hfr, List.singleton_append]
    simp only [evaluateLoop, evaluateStep_operator op l.value r.value opStack hzd hfv]

theorem evaluate_postorder (e : Tree) (hz : e.noZeroDivisor) (hfit : e.fits) :
    evaluate e.postorder = .ok e.value := by
  have h := evaluateLoop_postorder e hz hfit [] []
  rw [List.append_nil] at h
  simp only [evaluate, h, evaluateLoop]

theorem convertStep_operator_nil (op : BinOp) (out : List String) :
    convertStep ([], out) op.token = .ok ([op.token], out) := by
  cases op <;> rfl

/-- A binary operator met with another one on top of the stack and nothing below: the one on
the stack is popped unless it is additive and the new one is not. -/
theorem convertStep_operator_on_operator (top op : BinOp) (out : List String) :
    convertStep ([top.token], out) op.token =
      if top.additive = true ∧ op.additive = false then .ok ([op.token, top.token], out)
      else .ok ([op.token], out ++ [top.token]) := by
  cases top <;> cases op <;> rfl

theorem infixToPostfix_same_tier (a b c : Int) (o1 o2 : BinOp)
    (htier : o1.additive = o2.additive) :
    infixToPostfix [literal a, o1.token, literal b, o2.token, literal c] =
      .ok (Tree.node o2 (.node o1 (.lit a) (.lit b)) (.lit c)).postorder := by
  have h : ¬ (o1.additive = true ∧ o2.additive = false) := by
    rw [htier]; cases o2.additive <;> simp
  simp only [infixToPostfix, convertLoop, convertStep_literal, convertStep_operator_nil,
    convertStep_operator_on_operator, if_neg h, popWhile_all, Tree.postorder]
  simp

theorem infixToPostfix_higher_tier (a b c : Int) (o1 o2 : BinOp)
    (h1 : o1.additive = true) (h2 : o2.additive = false) :
    infixToPostfix [literal a, o1.token, literal b, o2.token, literal c] =
      .ok (Tree.node o1 (.lit a) (.node o2 (.lit b) (.lit c))).postorder := by
  have h : o1.additive = true ∧ o2.additive = false := ⟨h1, h2⟩
  simp only [infixToPostfix, convertLoop, convertStep_literal, convertStep_operator_nil,
    convertStep_operator_on_operator, if_pos h, popWhile_all, Tree.postorder]
  simp

theorem infixToPostfix_grouped (a b c : Int) (o1 o2 : BinOp) :
    infixToPostfix ["(", literal a, o1.token, literal b, ")", o2.token, literal c] =
      .ok (Tree.node o2 (.node o1 (.lit a) (.lit b)) (.lit c)).postorder := by
  simp only [infixToPostfix, convertLoop, convertStep_open, convertStep_literal,
    convertStep_operator_on_open, convertStep_close, convertStep_operator_nil, popWhile_all,
    Tree.postorder]
  simp

/-! ## The tokenizer -/

theorem inString_append (pre rest : List Char) :
    inString (pre ++ rest) (pre.length : Int) = !rest.isEmpty := by
  cases rest with
  | nil => simp [inString]
  | cons c r => simp [inString]

theorem inString_self (pre : List Char) : inString pre (pre.length : Int) = false := by
  simp [inString]

theorem charAt_append (pre : List Char) (c : Char) (r : List Char) :
    charAt (pre ++ c :: r) (pre.length : Int) = c := by
  have h : (pre ++ c :: r)[pre.length]? = some c := by
    rw [List.getElem?_append_right (Nat.le_refl _)]
    simp
  simp [charAt, List.getD_eq_getElem?_getD, h]

theorem skipSpaces_append : ∀ (fuel : Nat) (pre rest : List Char), rest.length ≤ fuel →
    skipSpaces (pre ++ rest) fuel (pre.length : Int) =
      ((pre ++ rest.takeWhile (fun c => c == ' ')).length : Int) := by
  intro fuel
  induction fuel with
  | zero =>
    intro pre rest h
    have : rest = [] := List.length_eq_zero.1 (by omega)
    subst this
    simp [skipSpaces]
  | succ fuel ih =>
    intro pre rest h
    cases rest with
    | nil => simp [skipSpaces, inString_self]
    | cons c r =>
      simp only [skipSpaces, inString_append, charAt_append, List.isEmpty_cons, Bool.not_false,
        Bool.true_and]
      by_cases hc : (c == ' ') = true
      · have h1 : pre ++ c :: r = (pre ++ [c]) ++ r := by simp
        have h2 : ((pre.length : Int) + 1) = ((pre ++ [c]).length : Int) := by simp
        rw [if_pos hc, h1, h2, ih (pre ++ [c]) r (by simpa using h)]
        simp [List.takeWhile_cons, hc]
      · rw [if_neg hc]
        simp [List.takeWhile_cons, hc]

theorem readOperand_append : ∀ (fuel : Nat) (pre rest : List Char) (newToken : String),
    rest.length ≤ fuel →
    readOperand (pre ++ rest) fuel (pre.length : Int) newToken =
      (((pre ++ rest.takeWhile isWordChar).length : Int),
        String.mk (newToken.data ++ rest.takeWhile isWordChar)) := by
  intro fuel
  induction fuel with
  | zero =>
    intro pre rest newToken h
    have : rest = [] := List.length_eq_zero.1 (by omega)
    subst this
    simp [readOperand]
  | succ fuel ih =>
    intro pre rest newToken h
    cases rest with
    | nil => simp [readOperand, inString_self]
    | cons c r =>
      simp only [readOperand, inString_append, charAt_append, List.isEmpty_cons, Bool.not_false,
        Bool.true_and]
      by_cases hc : isWordChar c = true
      · have hc' : (c != ' ' && !isOperator (String.singleton c)) = true := hc
        have h1 : pre ++ c :: r = (pre ++ [c]) ++ r := by simp
        have h2 : ((pre.length : Int) + 1) = ((pre ++ [c]).length : Int) := by simp
        rw [if_pos hc', h1, h2, ih (pre ++ [c]) r _ (by simpa using h)]
        simp [List.takeWhile_cons, hc, String.push]
      · have hc' : ¬ (c != ' ' && !isOperator (String.singleton c)) = true := hc
        rw [if_neg hc']
        simp [List.takeWhile_cons, hc]

theorem tokenizeStep_append (pre rest : List Char) (token : List String) :
    ∃ pre', pre ++ rest = pre' ++ (nextToken rest).2 ∧
      tokenizeStep (pre ++ rest) (pre.length : Int) token =
        ((pre'.length : Int), token ++ (nextToken rest).1.toList) := by
  have hsplit : rest = rest.takeWhile (fun c => c == ' ') ++ rest.dropWhile (fun c => c == ' ') :=
    (List.takeWhile_append_dropWhile _ rest).symm
  have hskip := skipSpaces_append (pre ++ rest).length pre rest (by simp)
  generalize hsp : rest.takeWhile (fun c => c == ' ') = sp at hsplit hskip
  cases hr : rest.dropWhile (fun c => c == ' ') with
  | nil =>
    rw [hr, List.append_nil] at hsplit
    subst hsplit
    refine ⟨pre ++ rest, by simp [nextToken, hr], ?_⟩
    have hread := readOperand_append (pre ++ rest).length (pre ++ rest) [] "" (by simp)
    simp only [List.append_nil, List.takeWhile_nil] at hread
    simp only [tokenizeStep, hskip, inString_self, Bool.false_and, Bool.false_eq_true, if_false,
      hread, nextToken, hr]
    simp
  | cons c r2 =>
    rw [hr] at hsplit
    have hc : (c == ' ') = false := by
      have := List.head_dropWhile_not (fun c => c == ' ') rest (by rw [hr]; simp)
      simpa [hr] using this
    have heqn : pre ++ rest = (pre ++ sp) ++ c :: r2 := by rw [hsplit]; simp
    by_cases hop : isOperator (String.singleton c) = true
    · refine ⟨pre ++ sp ++ [c], by simp [nextToken, hr, hop, heqn], ?_⟩
      simp only [tokenizeStep, hskip]
      rw [heqn]
      simp only [inString_append, charAt_append, List.isEmpty_cons, Bool.not_false,
        Bool.true_and, hop, if_true]
      have hne : "".push c ≠ "" := by
        intro h
        have := congrArg String.length h
        simp at this
      have hpush : "".push c = String.singleton c := rfl
      rw [if_pos hne, hpush]
      simp only [nextToken, hr, hop, if_true, Option.toList, List.length_append,
        List.length_singleton, Nat.cast_add, Nat.cast_one]
    · have hw : isWordChar c = true := by
        simp only [isWordChar, Bool.and_eq_true, bne_iff_ne, ne_eq, Bool.not_eq_true',
          Bool.not_eq_true] at hop ⊢
        exact ⟨by simpa using hc, hop⟩
      refine ⟨pre ++ sp ++ (c :: r2).takeWhile isWordChar, ?_, ?_⟩
      · simp only [nextToken, hr, hop, Bool.false_eq_true, if_false, heqn, List.append_assoc]
        rw [List.takeWhile_append_dropWhile]
      · have hread := readOperand_append (pre ++ rest).length (pre ++ sp) (c :: r2) ""
          (by rw [heqn]; simp; omega)
        rw [← heqn] at hread
        simp only [tokenizeStep, hskip]
        have hin : inString (pre ++ rest) ((pre ++ sp).length : Int) = true := by
          rw [heqn, inString_append]; rfl
        have hch : charAt (pre ++ rest) ((pre ++ sp).length : Int) = c := by
          rw [heqn, charAt_append]
        simp only [hin, hch, hop, Bool.true_and, Bool.false_eq_true, if_false, hread]
        have hne : String.mk ("".data ++ List.takeWhile isWordChar (c :: r2)) ≠ "" := by
          intro h
          have := congrArg String.length h
          simp [List.takeWhile_cons, hw] at this
        rw [if_pos hne]
        simp [nextToken, hr, hop]

theorem length_dropWhile_le (p : Char → Bool) (l : List Char) :
    (l.dropWhile p).length ≤ l.length :=
  (List.dropWhile_sublist p).length_le

theorem nextToken_length (rest : List Char) (h : rest ≠ []) :
    (nextToken rest).2.length < rest.length := by
  have hlen : 0 < rest.length := List.length_pos.2 h
  have hle := length_dropWhile_le (fun c => c == ' ') rest
  unfold nextToken
  cases hr : rest.dropWhile (fun c => c == ' ') with
  | nil => simpa using hlen
  | cons c r2 =>
    rw [hr] at hle
    simp only [List.length_cons] at hle
    by_cases hop : isOperator (String.singleton c) = true
    · simp only [hop, if_true]; omega
    · have := length_dropWhile_le isWordChar (c :: r2)
      have hc : (c == ' ') = false := by
        have := List.head_dropWhile_not (fun c => c == ' ') rest (by rw [hr]; simp)
        simpa [hr] using this
      have hw : isWordChar c = true := by
        simp only [isWordChar, Bool.and_eq_true, bne_iff_ne, ne_eq, Bool.not_eq_true',
          Bool.not_eq_true] at hop ⊢
        exact ⟨by simpa using hc, hop⟩
      have h2 := length_dropWhile_le isWordChar r2
      simp only [hop, Bool.false_eq_true, if_false, List.dropWhile_cons, hw, if_true]
      omega

theorem scan_nil (fuel : Nat) : scan fuel [] = [] := by
  cases fuel <;> simp [scan]

/-- The scanning loop of the constructor, started at the end of `pre` in the input
`pre ++ rest`, ends within `rest.length` rounds and appends the tokens of `rest`. -/
theorem tokenizeLoop_append : ∀ (fuel : Nat) (pre rest : List Char) (token : List String),
    rest.length ≤ fuel →
    tokenizeLoop (pre ++ rest) fuel (pre.length : Int) token = some (token ++ scan fuel rest) := by
  intro fuel
  induction fuel with
  | zero =>
    intro pre rest token h
    have : rest = [] := List.length_eq_zero.1 (by omega)
    subst this
    simp [tokenizeLoop, inString_self, scan]
  | succ fuel ih =>
    intro pre rest token h
    by_cases hrest : rest = []
    · subst hrest
      simp [tokenizeLoop, inString_self, scan]
    · obtain ⟨pre', heq, hstep⟩ := tokenizeStep_append pre rest token
      have hlt := nextToken_length rest hrest
      have hin : inString (pre ++ rest) (pre.length : Int) = true := by
        rw [inString_append]; simpa using hrest
      simp only [tokenizeLoop, hin, if_true, hstep, scan, hrest, if_false]
      rw [heq, ih pre' _ _ (by omega), List.append_assoc]

theorem Tokenize_eq_scan (eqn : String) :
    Tokenize eqn = some (scan eqn.data.length eqn.data) := by
  have := tokenizeLoop_append eqn.data.length [] eqn.data [] (Nat.le_refl _)
  simpa [Tokenize] using this

theorem isWordChar_of_isDigit (c : Char) (h : c.isDigit = true) : isWordChar c = true := by
  have hsp : c ≠ ' ' := by rintro rfl; revert h; decide
  have hop : isOperator (String.singleton c) = false := by
    by_contra hop
    obtain ⟨x, hx, hsx⟩ := isOperator_data _ (by simpa using hop)
    have hcx : c = x := by
      have : (String.singleton c).data = [c] := rfl
      rw [this] at hsx
      simpa using hsx
    have := not_isDigit_of_mem_operatorChars x hx
    rw [← hcx, h] at this
    exact absurd this (by simp)
  simp [isWordChar, hsp, hop]

theorem not_isWordChar_of_mem_operatorChars : ∀ c ∈ operatorChars, isWordChar c = false := by
  decide

theorem not_space_of_mem_operatorChars : ∀ c ∈ operatorChars, (c == ' ') = false := by
  decide

theorem isOperator_singleton_of_mem : ∀ c ∈ operatorChars,
    isOperator (String.singleton c) = true := by
  decide

theorem dropWhile_replicate_space (n : Nat) (l : List Char)
    (h : ∀ c r, l = c :: r → (c == ' ') = false) :
    (List.replicate n ' ' ++ l).dropWhile (fun c => c == ' ') = l := by
  rw [List.dropWhile_append_of_pos (by intro a ha; simp [List.eq_of_mem_replicate ha])]
  cases l with
  | nil => rfl
  | cons c r => rw [List.dropWhile_cons_of_neg (by simp [h c r rfl])]

theorem spaced_startsWithDelimiter (ts : List (Nat × String)) (k : Nat)
    (h : ∀ p r, ts = p :: r → isOperator p.2 = true) : startsWithDelimiter (spaced ts k) := by
  intro c r hcr
  cases ts with
  | nil =>
    cases k with
    | zero => simp [spaced] at hcr
    | succ k =>
      simp only [spaced, List.replicate_succ, List.cons.injEq] at hcr
      rw [← hcr.1]; decide
  | cons p ts =>
    obtain ⟨n, t⟩ := p
    have hop := h (n, t) ts rfl
    obtain ⟨x, hx, hsx⟩ := isOperator_data t hop
    cases n with
    | zero =>
      simp only [spaced, List.replicate_zero, List.nil_append, hsx, List.singleton_append,
        List.cons.injEq] at hcr
      rw [← hcr.1]; exact not_isWordChar_of_mem_operatorChars x hx
    | succ n =>
      simp only [spaced, List.replicate_succ, List.cons_append, List.cons.injEq] at hcr
      rw [← hcr.1]; decide

theorem takeWhile_startsWithDelimiter (l : List Char) (h : startsWithDelimiter l) :
    l.takeWhile isWordChar = [] ∧ l.dropWhile isWordChar = l := by
  cases l with
  | nil => simp
  | cons c r =>
    have := h c r rfl
    simp [List.takeWhile_cons, List.dropWhile_cons, this]

theorem nextToken_operator (n : Nat) (t : String) (tail : List Char)
    (hop : isOperator t = true) :
    nextToken (List.replicate n ' ' ++ (t.data ++ tail)) = (some t, tail) := by
  obtain ⟨x, hx, hsx⟩ := isOperator_data t hop
  have ht : t = String.singleton x := by
    cases t; simp only at hsx; subst hsx; rfl
  have hdrop := dropWhile_replicate_space n (t.data ++ tail) (by
    intro c r hcr
    rw [hsx] at hcr
    simp only [List.singleton_append, List.cons.injEq] at hcr
    rw [← hcr.1]; exact not_space_of_mem_operatorChars x hx)
  unfold nextToken
  rw [hdrop, hsx]
  simp only [List.singleton_append, isOperator_singleton_of_mem x hx, if_true, ht]

theorem nextToken_digits (n : Nat) (t : String) (tail : List Char)
    (hdig : isDigitString t) (htail : startsWithDelimiter tail) :
    nextToken (List.replicate n ' ' ++ (t.data ++ tail)) = (some t, tail) := by
  obtain ⟨hne, hall⟩ := hdig
  have hword : ∀ c ∈ t.data, isWordChar c = true := fun c hc =>
    isWordChar_of_isDigit c (hall c hc)
  obtain ⟨htake, hdropw⟩ := takeWhile_startsWithDelimiter tail htail
  cases hd : t.data with
  | nil => exact absurd hd hne
  | cons c ds =>
    have hwc := hword c (by rw [hd]; simp)
    have hdrop := dropWhile_replicate_space n (t.data ++ tail) (by
      intro c' r hcr
      rw [hd] at hcr
      simp only [List.cons_append, List.cons.injEq] at hcr
      rw [← hcr.1]
      simp only [isWordChar, Bool.and_eq_true, bne_iff_ne, ne_eq] at hwc
      simpa using hwc.1)
    have hnop : isOperator (String.singleton c) = false := by
      simp only [isWordChar, Bool.and_eq_true, Bool.not_eq_true', bne_iff_ne] at hwc
      exact hwc.2
    have h1 : List.takeWhile isWordChar (t.data ++ tail) = t.data := by
      rw [List.takeWhile_append_of_pos hword, htake, List.append_nil]
    have h2 : List.dropWhile isWordChar (t.data ++ tail) = tail := by
      rw [List.dropWhile_append_of_pos hword, hdropw]
    have ht : t = String.mk (c :: ds) := by
      cases t; simp only at hd; rw [hd]
    unfold nextToken
    rw [hd] at hdrop h1 h2
    rw [hdrop]
    simp only [List.cons_append] at h1 h2 ⊢
    simp only [hnop, Bool.false_eq_true, if_false, h1, h2, ht]

theorem scan_spaces (fuel k : Nat) : scan fuel (List.replicate k ' ') = [] := by
  cases fuel with
  | zero => rfl
  | succ fuel =>
    have hdrop := dropWhile_replicate_space k [] (by intro c r h; cases h)
    rw [List.append_nil] at hdrop
    simp [scan, nextToken, hdrop, scan_nil]

/-- The scanning loop reads a separable sequence of tokens back from its text, whatever the
numbers of spaces. -/
theorem scan_spaced : ∀ (ts : List (Nat × String)) (k fuel : Nat),
    separable (ts.map Prod.snd) → (spaced ts k).length ≤ fuel →
    scan fuel (spaced ts k) = ts.map Prod.snd := by
  intro ts
  induction ts with
  | nil => intro k fuel _ _; simp [spaced, scan_spaces]
  | cons p ts ih =>
    intro k fuel hsep hfuel
    obtain ⟨n, t⟩ := p
    obtain ⟨hvalid, hchain⟩ := hsep
    simp only [List.map_cons, List.chain'_cons', List.mem_cons, forall_eq_or_imp] at hvalid hchain
    have htsep : separable (ts.map Prod.snd) := ⟨hvalid.2, hchain.2⟩
    have ht : t.data ≠ [] := by
      rcases hvalid.1 with hop | hdig
      · obtain ⟨x, -, hsx⟩ := isOperator_data t hop
        rw [hsx]; simp
      · exact hdig.1
    have hnext : nextToken (spaced ((n, t) :: ts) k) = (some t, spaced ts k) := by
      rcases hvalid.1 with hop | hdig
      · exact nextToken_operator n t _ hop
      · apply nextToken_digits n t _ hdig
        apply spaced_startsWithDelimiter
        intro p r hpr
        subst hpr
        have := hchain.1 p.2 (by simp)
        rcases this with h | h
        · obtain ⟨x, hx, hsx⟩ := isOperator_data t h
          have := hdig.2 x (by rw [hsx]; simp)
          rw [not_isDigit_of_mem_operatorChars x hx] at this
          exact absurd this (by simp)
        · exact h
    have hne : spaced ((n, t) :: ts) k ≠ [] := by
      simp [spaced, ht]
    have hlen : (spaced ((n, t) :: ts) k).length = n + (t.data.length + (spaced ts k).length) := by
      simp [spaced]
    have htl : 0 < t.data.length := List.length_pos.2 ht
    cases fuel with
    | zero => omega
    | succ fuel =>
      simp only [scan, hne, if_false, hnext, Option.toList, List.singleton_append, List.map_cons]
      rw [ih k fuel htsep (by omega)]

/-! ## Failures of the evaluator and of the converter -/

/-- The evaluator on `pre ++ s :: post` when the tokens of `pre` leave the stack `opStack`:
the step on `s` decides. -/
theorem evaluate_reach (pre post : List String) (s : String) (opStack : List Int) (e : Fault)
    (hpre : evaluateLoop pre [] = .ok opStack) (hstep : evaluateStep opStack s = .error e) :
    evaluate (pre ++ s :: post) = .error e := by
  simp only [evaluate, evaluateLoop_append, hpre, evaluateLoop, hstep]

theorem stoi_not_number (t : String) (h : startsWithNumber t = false) :
    stoi t = .error .invalid_argument := by
  unfold startsWithNumber at h
  unfold stoi
  cases hd : t.data.dropWhile isspace with
  | nil => simp
  | cons c r =>
    rw [hd] at h
    by_cases hm : c = '-'
    · subst hm
      simp only [true_or, if_true] at h
      cases r with
      | nil => simp
      | cons d r' =>
        simp only at h
        simp [List.takeWhile_cons, h]
    · by_cases hp : c = '+'
      · subst hp
        simp only [or_true, if_true] at h
        cases r with
        | nil => simp
        | cons d r' =>
          simp only at h
          simp [List.takeWhile_cons, h]
      · simp only [hm, hp, or_self, if_false] at h
        simp [hm, hp, List.takeWhile_cons, h]

/-- On a text that starts with a number `std::stoi` returns that number when it is a value
of `int` and throws `std::out_of_range` when it is not. -/
theorem stoi_number (t : String) (h : startsWithNumber t = true) :
    stoi t = if fitsInt (leadingNumber t) then .ok (leadingNumber t)
      else .error .out_of_range := by
  unfold startsWithNumber at h
  unfold stoi leadingNumber
  cases hd : t.data.dropWhile isspace with
  | nil => rw [hd] at h; simp at h
  | cons c r =>
    rw [hd] at h
    by_cases hm : c = '-'
    · subst hm
      simp only [true_or, if_true] at h
      cases r with
      | nil => simp at h
      | cons d r' =>
        simp only at h
        simp [List.takeWhile_cons, h]
    · by_cases hp : c = '+'
      · subst hp
        simp only [or_true, if_true] at h
        cases r with
        | nil => simp at h
        | cons d r' =>
          simp only at h
          simp [List.takeWhile_cons, h]
      · simp only [hm, hp, or_self, if_false] at h
        simp [hm, hp, List.takeWhile_cons, h]

theorem popWhile_count_open (p : String → Bool) (hp : p "(" = false) :
    ∀ (stack out : List String), (popWhile p stack out).1.count "(" = stack.count "(" := by
  intro stack
  induction stack with
  | nil => intro out; rfl
  | cons t rest ih =>
    intro out
    by_cases ht : p t = true
    · have hne : t ≠ "(" := by rintro rfl; rw [hp] at ht; exact absurd ht (by simp)
      simp only [popWhile, ht, if_true, ih]
      rw [List.count_cons_of_ne (Ne.symm hne)]
    · simp only [popWhile, ht, Bool.false_eq_true, if_false]

theorem getInPrecedence_pos (t : String) (h : t ≠ "(") : getInPrecedence t > 0 := by
  unfold getInPrecedence
  split_ifs <;> simp

/-- The loop run for a closing parenthesis stops on an empty stack or on an opening one. -/
theorem popWhile_close_head : ∀ (stack out : List String),
    (popWhile (fun t => decide (getInPrecedence t > getOutPrecedence ")")) stack out).1 = [] ∨
    ∃ rest, (popWhile (fun t => decide (getInPrecedence t > getOutPrecedence ")"))
      stack out).1 = "(" :: rest := by
  intro stack
  induction stack with
  | nil => intro out; exact Or.inl rfl
  | cons t rest ih =>
    intro out
    have h0 : getOutPrecedence ")" = 0 := by decide
    by_cases ht : t = "("
    · subst ht
      exact Or.inr ⟨rest, rfl⟩
    · have hpos := getInPrecedence_pos t ht
      have hdec : decide (getInPrecedence t > getOutPrecedence ")") = true := by
        rw [h0]; simpa using hpos
      simp only [popWhile, hdec, if_true]
      exact ih _

theorem convertStep_close_underflow (stack out : List String) (h : stack.count "(" = 0) :
    convertStep (stack, out) ")" = .error .stackUnderflow := by
  have hop : isOperator ")" = true := by decide
  have hcount := popWhile_count_open (fun t => decide (getInPrecedence t > getOutPrecedence ")"))
    (by decide) stack out
  simp only [convertStep, hop, if_true]
  rcases popWhile_close_head stack out with hnil | ⟨rest, hcons⟩
  · cases hpw : popWhile (fun t => decide (getInPrecedence t > getOutPrecedence ")")) stack out
      with
    | mk a b =>
      rw [hpw] at hnil
      simp only at hnil
      subst hnil
      rfl
  · rw [hcons, h] at hcount
    simp at hcount

theorem convertStep_close_ok (stack out : List String) (h : 0 < stack.count "(") :
    ∃ stack' out', convertStep (stack, out) ")" = .ok (stack', out') ∧
      stack'.count "(" + 1 = stack.count "(" := by
  have hop : isOperator ")" = true := by decide
  have hcount := popWhile_count_open (fun t => decide (getInPrecedence t > getOutPrecedence ")"))
    (by decide) stack out
  simp only [convertStep, hop, if_true]
  rcases popWhile_close_head stack out with hnil | ⟨rest, hcons⟩
  · rw [hnil] at hcount
    simp only [List.count_nil] at hcount
    omega
  · cases hpw : popWhile (fun t => decide (getInPrecedence t > getOutPrecedence ")")) stack out
      with
    | mk a b =>
      rw [hpw] at hcons hcount
      simp only at hcons hcount
      subst hcons
      refine ⟨rest, b, rfl, ?_⟩
      rw [← hcount]
      simp

theorem getOutPrecedence_pos (s : String) (h : s ≠ ")") : getOutPrecedence s > 0 := by
  unfold getOutPrecedence
  split_ifs <;> simp

theorem convertStep_other_ok (stack out : List String) (s : String) (h : s ≠ ")") :
    ∃ stack' out', convertStep (stack, out) s = .ok (stack', out') ∧
      stack'.count "(" = stack.count "(" + (if s = "(" then 1 else 0) := by
  by_cases hop : isOperator s = true
  · have hp : (fun t => decide (getInPrecedence t ≥ getOutPrecedence s)) "(" = false := by
      have h0 : getInPrecedence "(" = 0 := by decide
      have := getOutPrecedence_pos s h
      simp only [h0, ge_iff_le, decide_eq_false_iff_not, not_le]
      exact this
    have hcount := popWhile_count_open
      (fun t => decide (getInPrecedence t ≥ getOutPrecedence s)) hp stack out
    simp only [convertStep, hop, if_true, h, if_false]
    refine ⟨_, _, rfl, ?_⟩
    rw [List.count_cons, hcount]
    by_cases hs : s = "(" <;> simp [hs]
  · have hs : s ≠ "(" := by rintro rfl; exact hop (by decide)
    simp only [convertStep, hop, Bool.false_eq_true, if_false]
    exact ⟨_, _, rfl, by simp [hs]⟩

theorem take_succ_count (s : String) (rest : List String) (m : Nat) (x : String) :
    ((s :: rest).take (m + 1)).count x = (rest.take m).count x + (if s = x then 1 else 0) := by
  rw [List.take_succ_cons, List.count_cons]
  simp

/-- The loop of the converter reaches the pop of an empty stack exactly when some prefix of
the tokens closes more parentheses than it opens and the stack holds; otherwise it runs to
the end. -/
theorem convertLoop_unmatched : ∀ (token stack out : List String),
    ((∃ n, stack.count "(" + (token.take n).count "(" < (token.take n).count ")") →
      convertLoop token (stack, out) = .error .stackUnderflow) ∧
    ((∀ n, (token.take n).count ")" ≤ stack.count "(" + (token.take n).count "(") →
      ∃ st, convertLoop token (stack, out) = .ok st) := by
  intro token
  induction token with
  | nil =>
    intro stack out
    exact ⟨fun ⟨n, hn⟩ => by simp at hn, fun _ => ⟨_, rfl⟩⟩
  | cons s rest ih =>
    intro stack out
    by_cases hs : s = ")"
    · subst hs
      have hne : ¬ (")" = "(") := by decide
      by_cases hc : stack.count "(" = 0
      · have hstep := convertStep_close_underflow stack out hc
        constructor
        · intro _
          simp only [convertLoop, hstep]
        · intro hall
          have := hall 1
          simp [hc] at this
      · obtain ⟨stack', out', hstep, hcount⟩ := convertStep_close_ok stack out (by omega)
        obtain ⟨ih1, ih2⟩ := ih stack' out'
        constructor
        · rintro ⟨n, hn⟩
          simp only [convertLoop, hstep]
          apply ih1
          cases n with
          | zero => simp at hn
          | succ m =>
            rw [take_succ_count, take_succ_count] at hn
            simp only [hne, if_false, if_true, Nat.add_zero] at hn
            exact ⟨m, by omega⟩
        · intro hall
          simp only [convertLoop, hstep]
          apply ih2
          intro n
          have := hall (n + 1)
          rw [take_succ_count, take_succ_count] at this
          simp only [hne, if_false, if_true, Nat.add_zero] at this
          omega
    · obtain ⟨stack', out', hstep, hcount⟩ := convertStep_other_ok stack out s hs
      obtain ⟨ih1, ih2⟩ := ih stack' out'
      constructor
      · rintro ⟨n, hn⟩
        simp only [convertLoop, hstep]
        apply ih1
        cases n with
        | zero => simp at hn
        | succ m =>
          rw [take_succ_count, take_succ_count] at hn
          simp only [hs, if_false, Nat.add_zero] at hn
          exact ⟨m, by omega⟩
      · intro hall
        simp only [convertLoop, hstep]
        apply ih2
        intro n
        have := hall (n + 1)
        rw [take_succ_count, take_succ_count] at this
        simp only [hs, if_false, Nat.add_zero] at this
        omega

/-! ## The claims -/

/-- C1, amended: for every fully parenthesized expression in which no divisor is zero and in
which every literal and the value of every subexpression lies in the range of `int`, the
converter followed by the evaluator succeeds and returns the mathematical value of the tree,
with `/` truncating toward zero. -/
theorem C1_fully_parenthesized_value (e : Tree) (hz : e.noZeroDivisor) (hfit : e.fits) :
    evaluateInfix e.tokens = .ok e.value := by
  simp only [evaluateInfix, infixToPostfix_tokens, evaluate_postorder e hz hfit]

/-- C1, witness: the expression ((2+3)*4) evaluates to 20. -/
theorem C1_fully_parenthesized_value_witness :
    evaluateInfix (Tree.node .mul (.node .add (.lit 2) (.lit 3)) (.lit 4)).tokens = .ok 20 :=
  C1_fully_parenthesized_value (Tree.node .mul (.node .add (.lit 2) (.lit 3)) (.lit 4))
    (by decide) (by decide)

/-- C1 as stated fails: in (3000000000+1) no divisor is zero, yet the evaluation does not
return 3000000001: `std::stoi` throws `std::out_of_range` on the first literal. -/
theorem C1_counterexample :
    (Tree.node .add (.lit 3000000000) (.lit 1)).noZeroDivisor ∧
    (Tree.node .add (.lit 3000000000) (.lit 1)).tokens = ["(", "3000000000", "+", "1", ")"] ∧
    evaluateInfix (Tree.node .add (.lit 3000000000) (.lit 1)).tokens = .error .out_of_range ∧
    evaluateInfix (Tree.node .add (.lit 3000000000) (.lit 1)).tokens ≠
      .ok (Tree.node .add (.lit 3000000000) (.lit 1)).value :=
  ⟨by decide, by decide, by decide, by decide⟩

/-- C2: the string "2-1 + 2 * (2 + 3)" tokenizes to [2, -, 1, +, 2, *, (, 2, +, 3, )], that
sequence converts to the postfix sequence [2, 1, -, 2, 2, 3, +, *, +], the postfix sequence
evaluates to 11, and so `Calculate()` returns 11. -/
theorem C2_given_example :
    Tokenize "2-1 + 2 * (2 + 3)" =
      some ["2", "-", "1", "+", "2", "*", "(", "2", "+", "3", ")"] ∧
    infixToPostfix ["2", "-", "1", "+", "2", "*", "(", "2", "+", "3", ")"] =
      .ok ["2", "1", "-", "2", "2", "3", "+", "*", "+"] ∧
    evaluate ["2", "1", "-", "2", "2", "3", "+", "*", "+"] = .ok 11 ∧
    Calculate "2-1 + 2 * (2 + 3)" = some (.ok 11) := by
  decide

/-- C3, amended: for all non-negative literals a, b, c and operators o1, o2 of one tier, with
no zero divisor and with a, b, c, a o1 b and (a o1 b) o2 c in the range of `int`, the
sequence [a, o1, b, o2, c] evaluates to (a o1 b) o2 c; and "8 - 3 - 2" evaluates to 3. -/
theorem C3_left_associative :
    (∀ (a b c : Nat) (o1 o2 : BinOp), o1.additive = o2.additive →
      (o1 = .div → b ≠ 0) → (o2 = .div → c ≠ 0) →
      fitsInt a → fitsInt b → fitsInt c →
      fitsInt (o1.apply a b) → fitsInt (o2.apply (o1.apply a b) c) →
      evaluateInfix [literal a, o1.token, literal b, o2.token, literal c] =
        .ok (o2.apply (o1.apply a b) c)) ∧
    Calculate "8 - 3 - 2" = some (.ok 3) := by
  refine ⟨?_, by decide⟩
  intro a b c o1 o2 htier hz1 hz2 ha hb hc hab habc
  simp only [evaluateInfix, infixToPostfix_same_tier _ _ _ _ _ htier]
  exact evaluate_postorder (Tree.node o2 (.node o1 (.lit a) (.lit b)) (.lit c))
    ⟨⟨trivial, trivial, fun h => by show (b : Int) ≠ 0; exact_mod_cast hz1 h⟩, trivial,
      fun h => by show (c : Int) ≠ 0; exact_mod_cast hz2 h⟩
    ⟨⟨ha, hb, hab⟩, hc, habc⟩

/-- C3, witness: [8, -, 3, -, 2] evaluates to (8 - 3) - 2. -/
theorem C3_left_associative_witness :
    evaluateInfix [literal (8 : Nat), BinOp.sub.token, literal (3 : Nat), BinOp.sub.token,
      literal (2 : Nat)] = .ok (BinOp.sub.apply (BinOp.sub.apply 8 3) 2) :=
  C3_left_associative.1 8 3 2 .sub .sub rfl (by decide) (by decide) (by decide) (by decide)
    (by decide) (by decide) (by decide)

/-- C3 as stated fails: [3000000000, +, 1, +, 1] does not evaluate to 3000000002, the first
literal is outside `int` and `std::stoi` throws `std::out_of_range`. -/
theorem C3_counterexample :
    BinOp.add.additive = BinOp.add.additive ∧
    evaluateInfix [literal (3000000000 : Nat), BinOp.add.token, literal (1 : Nat),
      BinOp.add.token, literal (1 : Nat)] = .error .out_of_range ∧
    evaluateInfix [literal (3000000000 : Nat), BinOp.add.token, literal (1 : Nat),
      BinOp.add.token, literal (1 : Nat)] ≠
        .ok (BinOp.add.apply (BinOp.add.apply (3000000000 : Nat) (1 : Nat)) (1 : Nat)) := by
  decide

/-- C4, amended: for all non-negative literals a, b, c, every o1 among + - and every o2
among * / (c not zero when o2 is /), with a, b, c, b o2 c and a o1 (b o2 c) in the range of
`int`, the sequence [a, o1, b, o2, c] evaluates to a o1 (b o2 c); and "2 + 3 * 4" evaluates
to 14. -/
theorem C4_multiplicative_binds_tighter :
    (∀ (a b c : Nat) (o1 o2 : BinOp), o1.additive = true → o2.additive = false →
      (o2 = .div → c ≠ 0) →
      fitsInt a → fitsInt b → fitsInt c →
      fitsInt (o2.apply b c) → fitsInt (o1.apply a (o2.apply b c)) →
      evaluateInfix [literal a, o1.token, literal b, o2.token, literal c] =
        .ok (o1.apply a (o2.apply b c))) ∧
    Calculate "2 + 3 * 4" = some (.ok 14) := by
  refine ⟨?_, by decide⟩
  intro a b c o1 o2 h1 h2 hz ha hb hc hbc habc
  simp only [evaluateInfix, infixToPostfix_higher_tier _ _ _ _ _ h1 h2]
  refine evaluate_postorder (Tree.node o1 (.lit a) (.node o2 (.lit b) (.lit c)))
    ⟨trivial, ⟨trivial, trivial, fun h => by show (c : Int) ≠ 0; exact_mod_cast hz h⟩, ?_⟩
    ⟨ha, ⟨hb, hc, hbc⟩, habc⟩
  intro h
  rw [h] at h1
  exact absurd h1 (by decide)

/-- C4, witness: [2, +, 3, *, 4] evaluates to 2 + (3 * 4). -/
theorem C4_multiplicative_binds_tighter_witness :
    evaluateInfix [literal (2 : Nat), BinOp.add.token, literal (3 : Nat), BinOp.mul.token,
      literal (4 : Nat)] = .ok (BinOp.add.apply 2 (BinOp.mul.apply 3 4)) :=
  C4_multiplicative_binds_tighter.1 2 3 4 .add .mul rfl rfl (by decide) (by decide) (by decide)
    (by decide) (by decide) (by decide)

/-- C4 as stated fails: [1, +, 3000000000, *, 2] does not evaluate to 6000000001, the second
literal is outside `int` and `std::stoi` throws `std::out_of_range`. -/
theorem C4_counterexample :
    BinOp.add.additive = true ∧ BinOp.mul.additive = false ∧
    evaluateInfix [literal (1 : Nat), BinOp.add.token, literal (3000000000 : Nat),
      BinOp.mul.token, literal (2 : Nat)] = .error .out_of_range ∧
    evaluateInfix [literal (1 : Nat), BinOp.add.token, literal (3000000000 : Nat),
      BinOp.mul.token, literal (2 : Nat)] ≠
        .ok (BinOp.add.apply (1 : Nat) (BinOp.mul.apply (3000000000 : Nat) (2 : Nat))) := by
  decide

/-- C5, amended: for all non-negative literals a, b, c, every o1 among + - and every o2
among * / (c not zero when o2 is /), with a, b, c, a o1 b and (a o1 b) o2 c in the range of
`int`, the sequence [(, a, o1, b, ), o2, c] evaluates to (a o1 b) o2 c; and "(2 + 3) * 4"
evaluates to 20. -/
theorem C5_parentheses_override :
    (∀ (a b c : Nat) (o1 o2 : BinOp), o1.additive = true → o2.additive = false →
      (o2 = .div → c ≠ 0) →
      fitsInt a → fitsInt b → fitsInt c →
      fitsInt (o1.apply a b) → fitsInt (o2.apply (o1.apply a b) c) →
      evaluateInfix ["(", literal a, o1.token, literal b, ")", o2.token, literal c] =
        .ok (o2.apply (o1.apply a b) c)) ∧
    Calculate "(2 + 3) * 4" = some (.ok 20) := by
  refine ⟨?_, by decide⟩
  intro a b c o1 o2 h1 _ hz ha hb hc hab habc
  simp only [evaluateInfix, infixToPostfix_grouped]
  refine evaluate_postorder (Tree.node o2 (.node o1 (.lit a) (.lit b)) (.lit c))
    ⟨⟨trivial, trivial, ?_⟩, trivial, fun h => by show (c : Int) ≠ 0; exact_mod_cast hz h⟩
    ⟨⟨ha, hb, hab⟩, hc, habc⟩
  intro h
  rw [h] at h1
  exact absurd h1 (by decide)

/-- C5, witness: [(, 2, +, 3, ), *, 4] evaluates to (2 + 3) * 4. -/
theorem C5_parentheses_override_witness :
    evaluateInfix ["(", literal (2 : Nat), BinOp.add.token, literal (3 : Nat), ")",
      BinOp.mul.token, literal (4 : Nat)] = .ok (BinOp.mul.apply (BinOp.add.apply 2 3) 4) :=
  C5_parentheses_override.1 2 3 4 .add .mul rfl rfl (by decide) (by decide) (by decide)
    (by decide) (by decide) (by decide)

/-- C5 as stated fails: [(, 1, +, 1, ), *, 3000000000] does not evaluate to 6000000000, the
last literal is outside `int` and `std::stoi` throws `std::out_of_range`. -/
theorem C5_counterexample :
    BinOp.add.additive = true ∧ BinOp.mul.additive = false ∧
    evaluateInfix ["(", literal (1 : Nat), BinOp.add.token, literal (1 : Nat), ")",
      BinOp.mul.token, literal (3000000000 : Nat)] = .error .out_of_range ∧
    evaluateInfix ["(", literal (1 : Nat), BinOp.add.token, literal (1 : Nat), ")",
      BinOp.mul.token, literal (3000000000 : Nat)] ≠
        .ok (BinOp.mul.apply (BinOp.add.apply (1 : Nat) (1 : Nat)) (3000000000 : Nat)) := by
  decide

/-- C7, the code at the failing input "5 / 0": the string tokenizes to [5, /, 0] and converts
to [5, 0, /]; when the / token is reached the operand stack holds 0 above 5, and `Operation`
computes 5 / 0 (line 28) with no test of the divisor. The run ends there in undefined
behaviour: no error is raised and no result is defined. -/
theorem C7_unguarded_division_by_zero :
    Tokenize "5 / 0" = some ["5", "/", "0"] ∧
    infixToPostfix ["5", "/", "0"] = .ok ["5", "0", "/"] ∧
    evaluateLoop ["5", "0"] [] = .ok [0, 5] ∧
    Operation 0 5 "/" = .error .divisionByZero ∧
    Calculate "5 / 0" = some (.error .divisionByZero) ∧
    Fault.divisionByZero.isUndefinedBehaviour = true := by
  decide

/-- C8, amended: the evaluator fails at a non-operator token exactly when `std::stoi` throws
on it. For every postfix sequence in which a non-operator token is reached: when the token
does not start with a number (no digit follows the leading white space and the optional
sign), as "abc", the failure is `std::invalid_argument` and no integer is returned; when it
starts with a number outside the range of `int`, as "3000000000abc", the failure is
`std::out_of_range`; when it starts with a number in the range of `int`, as "12abc", the
token is read as that number, what follows the number is ignored, and the step does not
fail. -/
theorem C8_malformed_operand :
    (∀ (pre post : List String) (t : String) (opStack : List Int),
      evaluateLoop pre [] = .ok opStack → isOperator t = false →
      (startsWithNumber t = false →
        evaluate (pre ++ t :: post) = .error .invalid_argument) ∧
      (startsWithNumber t = true → ¬ fitsInt (leadingNumber t) →
        evaluate (pre ++ t :: post) = .error .out_of_range) ∧
      (startsWithNumber t = true → fitsInt (leadingNumber t) →
        evaluateLoop (pre ++ [t]) [] = .ok (leadingNumber t :: opStack))) ∧
    evaluate ["abc"] = .error .invalid_argument ∧
    evaluate ["3000000000abc"] = .error .out_of_range ∧
    evaluate ["12abc"] = .ok 12 := by
  refine ⟨?_, by decide, by decide, by decide⟩
  intro pre post t opStack hpre hop
  refine ⟨?_, ?_, ?_⟩
  · intro hnum
    apply evaluate_reach pre post t opStack _ hpre
    simp only [evaluateStep, hop, Bool.false_eq_true, if_false, stoi_not_number t hnum]
  · intro hnum hfit
    apply evaluate_reach pre post t opStack _ hpre
    simp only [evaluateStep, hop, Bool.false_eq_true, if_false, stoi_number t hnum,
      if_neg hfit]
  · intro hnum hfit
    simp only [evaluateLoop_append, hpre, evaluateLoop, evaluateStep, hop, Bool.false_eq_true,
      if_false, stoi_number t hnum, if_pos hfit]

/-- C8, witness: in [1, x2, +] the token x2 is reached and does not start with a number; in
[1, 99999999999] the token 99999999999 starts with a number outside `int`; in [1, 12abc] the
token 12abc is read as 12. -/
theorem C8_malformed_operand_witness :
    evaluate (["1"] ++ "x2" :: ["+"]) = .error .invalid_argument ∧
    evaluate (["1"] ++ "99999999999" :: []) = .error .out_of_range ∧
    evaluateLoop (["1"] ++ ["12abc"]) [] = .ok (leadingNumber "12abc" :: [1]) :=
  ⟨(C8_malformed_operand.1 ["1"] ["+"] "x2" [1] (by decide) (by decide)).1 (by decide),
   (C8_malformed_operand.1 ["1"] [] "99999999999" [1] (by decide) (by decide)).2.1
     (by decide) (by decide),
   (C8_malformed_operand.1 ["1"] [] "12abc" [1] (by decide) (by decide)).2.2
     (by decide) (by decide)⟩

/-- C8 as stated fails: "12abc" is not an operator and is not the text of an integer, yet the
evaluator does not fail on it: `std::stoi` reads the leading 12 and the result is 12. -/
theorem C8_counterexample :
    isOperator "12abc" = false ∧ "12abc" ≠ literal 12 ∧ evaluate ["12abc"] = .ok 12 ∧
    evaluate ["7", "12abc", "+"] = .ok 19 := by
  decide

/-- C9, the code at the failing input "1 +": the string tokenizes and converts to [1, +];
when the + token is reached the operand stack holds the single value 1, and `evaluate` reads
`top()` a second time, on the stack it has just emptied (line 100), with no test. On the
input "+" already the first `top()` (line 98) is on the empty stack. The run ends there in
undefined behaviour: a value that is not on the stack is read, and no error is raised. -/
theorem C9_unguarded_read_of_empty_stack :
    Tokenize "1 +" = some ["1", "+"] ∧
    infixToPostfix ["1", "+"] = .ok ["1", "+"] ∧
    evaluateLoop ["1"] [] = .ok [1] ∧
    evaluateStep [1] "+" = .error .stackUnderflow ∧
    Calculate "1 +" = some (.error .stackUnderflow) ∧
    evaluateStep [] "+" = .error .stackUnderflow ∧
    Calculate "+" = some (.error .stackUnderflow) ∧
    Fault.stackUnderflow.isUndefinedBehaviour = true := by
  decide

/-- C10, the code at the failing input "1 )": the string tokenizes to [1, )]; when the )
token is reached the operator stack is empty, the guarded loop of lines 64 to 68 does not
run, and `infixToPostfix` calls `pop()` on the empty stack (line 69) with no test. The run
ends there in undefined behaviour: no error is raised at conversion time. -/
theorem C10_unguarded_pop_of_empty_stack :
    Tokenize "1 )" = some ["1", ")"] ∧
    convertLoop ["1"] ([], []) = .ok ([], ["1"]) ∧
    popWhile (fun t => decide (getInPrecedence t > getOutPrecedence ")")) [] ["1"] =
      ([], ["1"]) ∧
    convertStep ([], ["1"]) ")" = .error .stackUnderflow ∧
    infixToPostfix ["1", ")"] = .error .stackUnderflow ∧
    Calculate "1 )" = some (.error .stackUnderflow) ∧
    Fault.stackUnderflow.isUndefinedBehaviour = true := by
  decide

/-! ## What the tokenizer emits -/

theorem scan_fuel : ∀ (fuel1 fuel2 : Nat) (rest : List Char),
    rest.length ≤ fuel1 → rest.length ≤ fuel2 → scan fuel1 rest = scan fuel2 rest := by
  intro fuel1
  induction fuel1 with
  | zero =>
    intro fuel2 rest h1 _
    have : rest = [] := List.length_eq_zero.1 (by omega)
    subst this
    rw [scan_nil, scan_nil]
  | succ fuel1 ih =>
    intro fuel2 rest h1 h2
    by_cases hrest : rest = []
    · subst hrest; rw [scan_nil, scan_nil]
    · have hlt := nextToken_length rest hrest
      cases fuel2 with
      | zero =>
        have : rest = [] := List.length_eq_zero.1 (by omega)
        exact absurd this hrest
      | succ fuel2 =>
        simp only [scan, hrest, if_false]
        rw [ih fuel2 _ (by omega) (by omega)]

theorem filter_dropWhile_space (rest : List Char) :
    rest.filter (fun c => c != ' ') =
      (rest.dropWhile (fun c => c == ' ')).filter (fun c => c != ' ') := by
  induction rest with
  | nil => rfl
  | cons c r ih =>
    by_cases hc : (c == ' ') = true
    · have hne : (c != ' ') = false := by simp [bne, hc]
      simp only [List.dropWhile_cons, hc, if_true, List.filter_cons, hne, Bool.false_eq_true,
        if_false, ih]
    · simp only [List.dropWhile_cons, hc, Bool.false_eq_true, if_false]

theorem not_space_of_isWordChar (c : Char) (h : isWordChar c = true) : (c != ' ') = true := by
  simp only [isWordChar, Bool.and_eq_true] at h
  exact h.1

theorem not_mem_operatorChars_of_isWordChar (c : Char) (h : isWordChar c = true) :
    c ∉ operatorChars := by
  intro hc
  rw [not_isWordChar_of_mem_operatorChars c hc] at h
  exact absurd h (by simp)

/-- One round of the scan splits the unread text, spaces apart, into the token and the rest;
the token is one operator character or a non-empty run of operand characters. -/
theorem nextToken_spec (rest : List Char) :
    (rest.filter (fun c => c != ' ') =
      (match (nextToken rest).1 with
        | some t => t.data
        | none => []) ++ (nextToken rest).2.filter (fun c => c != ' ')) ∧
    ∀ t, (nextToken rest).1 = some t →
      (∃ c ∈ operatorChars, t = String.singleton c) ∨
      (t.data ≠ [] ∧ ∀ c ∈ t.data, isWordChar c = true) := by
  rw [filter_dropWhile_space]
  unfold nextToken
  cases hr : rest.dropWhile (fun c => c == ' ') with
  | nil => simp
  | cons c r2 =>
    have hc : (c == ' ') = false := by
      have := List.head_dropWhile_not (fun c => c == ' ') rest (by rw [hr]; simp)
      simpa [hr] using this
    by_cases hop : isOperator (String.singleton c) = true
    · simp only [hop, if_true]
      constructor
      · have hne : (c != ' ') = true := by simp [bne, hc]
        simp only [List.filter_cons, hne, if_true]
        rfl
      · intro t ht
        simp only [Option.some.injEq] at ht
        subst ht
        left
        obtain ⟨x, hx, hsx⟩ := isOperator_data _ hop
        have hcx : c = x := by
          have : (String.singleton c).data = [c] := rfl
          rw [this] at hsx
          simpa using hsx
        exact ⟨c, hcx ▸ hx, rfl⟩
    · have hw : isWordChar c = true := by
        simp only [isWordChar, Bool.and_eq_true, bne_iff_ne, ne_eq, Bool.not_eq_true',
          Bool.not_eq_true] at hop ⊢
        exact ⟨by simpa using hc, hop⟩
      simp only [hop, Bool.false_eq_true, if_false]
      have hall : ∀ x ∈ List.takeWhile isWordChar (c :: r2), isWordChar x = true :=
        fun x hx => List.mem_takeWhile_imp hx
      constructor
      · conv_lhs => rw [← List.takeWhile_append_dropWhile isWordChar (c :: r2)]
        rw [List.filter_append]
        congr 1
        exact List.filter_eq_self.2 (fun x hx => not_space_of_isWordChar x (hall x hx))
      · intro t ht
        simp only [Option.some.injEq] at ht
        subst ht
        right
        exact ⟨by simp [List.takeWhile_cons, hw], hall⟩

theorem scan_tokens : ∀ (fuel : Nat) (rest : List Char), ∀ t ∈ scan fuel rest,
    (∃ c ∈ operatorChars, t = String.singleton c) ∨
    (t.data ≠ [] ∧ ∀ c ∈ t.data, isWordChar c = true) := by
  intro fuel
  induction fuel with
  | zero => intro rest t ht; simp [scan] at ht
  | succ fuel ih =>
    intro rest t ht
    by_cases hrest : rest = []
    · subst hrest; simp [scan] at ht
    · simp only [scan, hrest, if_false, List.mem_append] at ht
      rcases ht with ht | ht
      · apply (nextToken_spec rest).2 t
        cases hn : (nextToken rest).1 with
        | none => rw [hn] at ht; simp at ht
        | some u => rw [hn] at ht; simp only [Option.toList, List.mem_singleton] at ht; rw [ht]
      · exact ih _ t ht

theorem scan_join : ∀ (fuel : Nat) (rest : List Char), rest.length ≤ fuel →
    ((scan fuel rest).map String.data).flatten = rest.filter (fun c => c != ' ') := by
  intro fuel
  induction fuel with
  | zero =>
    intro rest h
    have : rest = [] := List.length_eq_zero.1 (by omega)
    subst this
    rfl
  | succ fuel ih =>
    intro rest h
    by_cases hrest : rest = []
    · subst hrest; rfl
    · have hlt := nextToken_length rest hrest
      simp only [scan, hrest, if_false, List.map_append, List.flatten_append]
      rw [ih (nextToken rest).2 (by omega), (nextToken_spec rest).1]
      congr 1
      cases (nextToken rest).1 <;> simp [Option.toList]

/-- Every round of the scanning loop of the constructor, entered at an index inside the
input, leaves an index that is larger and not beyond the end of the input. -/
theorem tokenizeStep_progress (eqn : List Char) (i : Nat) (token : List String)
    (h : i < eqn.length) :
    (i : Int) < (tokenizeStep eqn (i : Int) token).1 ∧
      (tokenizeStep eqn (i : Int) token).1 ≤ (eqn.length : Int) := by
  have hlen : (eqn.take i).length = i := by simp; omega
  have hrest : eqn.drop i ≠ [] := by
    intro h0
    have := congrArg List.length h0
    simp at this
    omega
  obtain ⟨pre', heq, hstep⟩ := tokenizeStep_append (eqn.take i) (eqn.drop i) token
  rw [List.take_append_drop, hlen] at hstep
  rw [List.take_append_drop] at heq
  have hlt := nextToken_length (eqn.drop i) hrest
  have hl := congrArg List.length heq
  simp only [List.length_append, List.length_drop] at hl hlt
  rw [hstep]
  simp only
  constructor <;> omega

theorem evaluateLoop_postorder_nil (e : Tree) (hz : e.noZeroDivisor) (hfit : e.fits) :
    evaluateLoop e.postorder [] = .ok [e.value] := by
  have h := evaluateLoop_postorder e hz hfit [] []
  rw [List.append_nil] at h
  rw [h]; rfl

/-- The truncating quotient has the absolute value of the quotient of the absolute values and
never the sign opposite to that of the exact quotient. -/
theorem tdiv_toward_zero (b a : Int) :
    (Int.tdiv b a).natAbs = b.natAbs / a.natAbs ∧
    (0 ≤ b * a → 0 ≤ Int.tdiv b a) ∧ (b * a ≤ 0 → Int.tdiv b a ≤ 0) := by
  refine ⟨Int.natAbs_tdiv b a, ?_, ?_⟩
  · intro h
    rcases Int.le_total 0 b with hb | hb
    · rcases Int.le_total 0 a with ha | ha
      · exact Int.tdiv_nonneg hb ha
      · rcases eq_or_lt_of_le hb with hb0 | hb0
        · rw [← hb0]; simp
        · have ha0 : a = 0 := by
            by_contra hne
            have : b * a < 0 := Int.mul_neg_of_pos_of_neg hb0 (lt_of_le_of_ne ha hne)
            omega
          rw [ha0]; simp
    · rcases Int.le_total 0 a with ha | ha
      · rcases eq_or_lt_of_le ha with ha0 | ha0
        · rw [← ha0]; simp
        · have hb0 : b = 0 := by
            by_contra hne
            have : b * a < 0 := Int.mul_neg_of_neg_of_pos (lt_of_le_of_ne hb hne) ha0
            omega
          rw [hb0]; simp
      · have := Int.tdiv_nonneg (a := -b) (b := -a) (by omega) (by omega)
        rwa [Int.neg_tdiv_neg] at this
  · intro h
    rcases Int.le_total 0 b with hb | hb
    · rcases Int.le_total 0 a with ha | ha
      · rcases eq_or_lt_of_le hb with hb0 | hb0
        · rw [← hb0]; simp
        · have ha0 : a = 0 := by
            by_contra hne
            have : 0 < b * a := Int.mul_pos hb0 (lt_of_le_of_ne ha (Ne.symm hne))
            omega
          rw [ha0]; simp
      · have := Int.tdiv_nonneg (a := b) (b := -a) hb (by omega)
        rw [Int.tdiv_neg] at this
        omega
    · rcases Int.le_total 0 a with ha | ha
      · have := Int.tdiv_nonneg (a := -b) (b := a) (by omega) ha
        rw [Int.neg_tdiv] at this
        omega
      · rcases eq_or_lt_of_le hb with hb0 | hb0
        · rw [hb0]; simp
        · have ha0 : a = 0 := by
            by_contra hne
            have : 0 < b * a := Int.mul_pos_of_neg_of_neg hb0 (lt_of_le_of_ne ha hne)
            omega
          rw [ha0]; simp

/-- C15, amended: for every expression tree without a zero divisor whose literals and
subexpression values lie in the range of `int`, the evaluator run on the postorder sequence
from an empty operand stack returns the value of the tree and ends with exactly that one
value on the stack; an operator token is applied as left OP right, the left operand being the
lower of the two topmost values; so [7, 2, -] gives 5. -/
theorem C15_operands_in_order :
    (∀ e : Tree, e.noZeroDivisor → e.fits →
      evaluate e.postorder = .ok e.value ∧ evaluateLoop e.postorder [] = .ok [e.value]) ∧
    (∀ (op : BinOp) (left right : Int) (opStack : List Int), (op = .div → right ≠ 0) →
      fitsInt (op.apply left right) →
      evaluateStep (right :: left :: opStack) op.token = .ok (op.apply left right :: opStack)) ∧
    evaluate ["7", "2", "-"] = .ok 5 := by
  refine ⟨fun e hz hfit => ⟨evaluate_postorder e hz hfit, evaluateLoop_postorder_nil e hz hfit⟩,
    fun op left right opStack hz hfit => evaluateStep_operator op left right opStack hz hfit,
    by decide⟩

/-- C15, witness: the postorder sequence [7, 2, 3, *, -] of 7 - 2 * 3 evaluates to 1 and
leaves the stack [1]. -/
theorem C15_operands_in_order_witness :
    evaluate (Tree.node .sub (.lit 7) (.node .mul (.lit 2) (.lit 3))).postorder = .ok 1 ∧
    evaluateLoop (Tree.node .sub (.lit 7) (.node .mul (.lit 2) (.lit 3))).postorder [] =
      .ok [1] :=
  C15_operands_in_order.1 (Tree.node .sub (.lit 7) (.node .mul (.lit 2) (.lit 3)))
    (by decide) (by decide)

/-- C15 as stated fails: the tree 3000000000 - 1 has no zero divisor, yet its postorder
sequence does not evaluate to 2999999999: `std::stoi` throws `std::out_of_range`. -/
theorem C15_counterexample :
    (Tree.node .sub (.lit 3000000000) (.lit 1)).noZeroDivisor ∧
    (Tree.node .sub (.lit 3000000000) (.lit 1)).postorder = ["3000000000", "1", "-"] ∧
    evaluate (Tree.node .sub (.lit 3000000000) (.lit 1)).postorder = .error .out_of_range ∧
    evaluate (Tree.node .sub (.lit 3000000000) (.lit 1)).postorder ≠
      .ok (Tree.node .sub (.lit 3000000000) (.lit 1)).value := by
  decide

/-- C16, amended: for all integers b and a in the range of `int`, a not zero, whose
truncating quotient lies in the range of `int` as well, the sequence [b, a, /] evaluates to
the quotient of b by a rounded toward zero, also when one of them is negative; [-7, 2, /]
gives -3 and "(0 - 7) / 2" gives -3. -/
theorem C16_division_truncates :
    (∀ b a : Int, a ≠ 0 → fitsInt b → fitsInt a → fitsInt (Int.tdiv b a) →
      evaluate [literal b, literal a, "/"] = .ok (Int.tdiv b a) ∧
      (Int.tdiv b a).natAbs = b.natAbs / a.natAbs ∧
      (0 ≤ b * a → 0 ≤ Int.tdiv b a) ∧ (b * a ≤ 0 → Int.tdiv b a ≤ 0)) ∧
    evaluate ["-7", "2", "/"] = .ok (-3) ∧
    Calculate "(0 - 7) / 2" = some (.ok (-3)) := by
  refine ⟨?_, by decide, by decide⟩
  intro b a ha hb hfa hq
  refine ⟨?_, tdiv_toward_zero b a⟩
  exact evaluate_postorder (Tree.node .div (.lit b) (.lit a))
    ⟨trivial, trivial, fun _ => ha⟩ ⟨hb, hfa, hq⟩

/-- C16, witness: [-7, 2, /] evaluates to the truncating quotient of -7 by 2. -/
theorem C16_division_truncates_witness :
    evaluate [literal (-7), literal 2, "/"] = .ok (Int.tdiv (-7) 2) :=
  (C16_division_truncates.1 (-7) 2 (by decide) (by decide) (by decide) (by decide)).1

/-- C16 as stated fails: [3000000000, 2, /] does not evaluate to 1500000000, the dividend is
outside `int` and `std::stoi` throws `std::out_of_range`. -/
theorem C16_counterexample :
    (2 : Int) ≠ 0 ∧
    evaluate [literal 3000000000, literal 2, "/"] = .error .out_of_range ∧
    evaluate [literal 3000000000, literal 2, "/"] ≠ .ok (Int.tdiv 3000000000 2) := by
  decide

/-! ## Steps of the converter in general -/

theorem popWhile_eq (p : String → Bool) : ∀ (stack out : List String),
    popWhile p stack out = (stack.dropWhile p, out ++ stack.takeWhile p) := by
  intro stack
  induction stack with
  | nil => intro out; simp [popWhile]
  | cons t rest ih =>
    intro out
    by_cases ht : p t = true
    · simp only [popWhile, ht, if_true, ih, List.dropWhile_cons, List.takeWhile_cons,
        List.append_assoc, List.singleton_append]
    · simp only [popWhile, ht, Bool.false_eq_true, if_false, List.dropWhile_cons,
        List.takeWhile_cons, List.append_nil]

/-- The three kinds of successful step of the converter: an operand goes to the output; a )
moves the operators above the topmost ( to the output and drops that (; any other operator
moves some operators, none of them a (, to the output and is pushed. -/
theorem convertStep_cases (stack out : List String) (s : String)
    (stack' out' : List String) (h : convertStep (stack, out) s = .ok (stack', out')) :
    (isOperator s = false ∧ stack' = stack ∧ out' = out ++ [s]) ∨
    (s = ")" ∧ ∃ popped, stack = popped ++ "(" :: stack' ∧ out' = out ++ popped ∧
      ∀ t ∈ popped, t ≠ "(") ∨
    (isOperator s = true ∧ s ≠ ")" ∧ ∃ popped rest, stack = popped ++ rest ∧
      stack' = s :: rest ∧ out' = out ++ popped ∧ ∀ t ∈ popped, t ≠ "(") := by
  by_cases hop : isOperator s = true
  · by_cases hs : s = ")"
    · subst hs
      right; left
      refine ⟨rfl, ?_⟩
      simp only [convertStep, hop, if_true, popWhile_eq] at h
      have hsplit := List.takeWhile_append_dropWhile
        (fun t => decide (getInPrecedence t > getOutPrecedence ")")) stack
      have hhead := popWhile_close_head stack out
      simp only [popWhile_eq] at hhead
      cases hd : stack.dropWhile (fun t => decide (getInPrecedence t > getOutPrecedence ")"))
        with
      | nil => rw [hd] at h; simp at h
      | cons t rest =>
        rw [hd] at h hsplit hhead
        simp only [Except.ok.injEq, Prod.mk.injEq] at h
        obtain ⟨h1, h2⟩ := h
        rcases hhead with hnil | ⟨r, hr⟩
        · simp at hnil
        · simp only [List.cons.injEq] at hr
          refine ⟨_, ?_, h2.symm, ?_⟩
          · rw [← h1, ← hr.1]; exact hsplit.symm
          · intro x hx hx0
            have := List.mem_takeWhile_imp hx
            rw [hx0] at this
            revert this; decide
    · right; right
      refine ⟨hop, hs, ?_⟩
      simp only [convertStep, hop, if_true, hs, if_false, popWhile_eq, Except.ok.injEq,
        Prod.mk.injEq] at h
      obtain ⟨h1, h2⟩ := h
      refine ⟨_, _, (List.takeWhile_append_dropWhile _ stack).symm, h1.symm, h2.symm, ?_⟩
      intro x hx hx0
      have hp := List.mem_takeWhile_imp hx
      rw [hx0] at hp
      have h0 : getInPrecedence "(" = 0 := by decide
      have := getOutPrecedence_pos s hs
      simp only [h0, ge_iff_le, decide_eq_true_eq] at hp
      omega
  · left
    simp only [Bool.not_eq_true] at hop
    simp only [convertStep, hop, Bool.false_eq_true, if_false, Except.ok.injEq,
      Prod.mk.injEq] at h
    exact ⟨hop, h.1.symm, h.2.symm⟩

theorem wellFormedState_step (st st' : List String × List String) (s : String)
    (hwf : wellFormedState st) (h : convertStep st s = .ok st') : wellFormedState st' := by
  obtain ⟨stack, out⟩ := st
  obtain ⟨stack', out'⟩ := st'
  obtain ⟨hS, hO⟩ := hwf
  simp only at hS hO
  rcases convertStep_cases stack out s stack' out' h with
    ⟨hop, h1, h2⟩ | ⟨_, popped, h1, h2, h3⟩ | ⟨hop, hs, popped, rest, h1, h2, h3, h4⟩
  · subst h1 h2
    refine ⟨hS, ?_⟩
    intro t ht
    rcases List.mem_append.1 ht with ht | ht
    · exact hO t ht
    · simp only [List.mem_singleton] at ht
      subst ht
      constructor <;> (rintro rfl; revert hop; decide)
  · subst h1 h2
    refine ⟨fun t ht => hS t (by simp [ht]), ?_⟩
    intro t ht
    rcases List.mem_append.1 ht with ht | ht
    · exact hO t ht
    · exact ⟨h3 t ht, (hS t (by simp [ht])).2⟩
  · subst h1 h2 h3
    constructor
    · intro t ht
      simp only [List.mem_cons] at ht
      rcases ht with rfl | ht
      · exact ⟨hop, hs⟩
      · exact hS t (by simp [ht])
    · intro t ht
      rcases List.mem_append.1 ht with ht | ht
      · exact hO t ht
      · exact ⟨h4 t ht, (hS t (by simp [ht])).2⟩

theorem wellFormedState_loop : ∀ (token : List String) (st st' : List String × List String),
    wellFormedState st → convertLoop token st = .ok st' → wellFormedState st' := by
  intro token
  induction token with
  | nil =>
    intro st st' hwf h
    simp only [convertLoop, Except.ok.injEq] at h
    exact h ▸ hwf
  | cons s rest ih =>
    intro st st' hwf h
    simp only [convertLoop] at h
    cases hstep : convertStep st s with
    | error e => rw [hstep] at h; simp at h
    | ok st1 =>
      rw [hstep] at h
      exact ih st1 st' (wellFormedState_step st st1 s hwf hstep) h

theorem wellFormedState_init : wellFormedState ([], []) := by
  constructor <;> intro t ht <;> simp at ht

/-- C19: the precedence functions have the values of the table, in-stack 2 for + and -, 4 for
* and /, 0 for (, out-of-stack 1 for + and -, 3 for * and /, 5 for ( and 0 for ); and
whatever tokens the converter has read, no ) is on the operator stack, so that the in-stack
precedence of ) is never looked up. -/
theorem C19_precedence_table :
    (getInPrecedence "+" = 2 ∧ getInPrecedence "-" = 2 ∧ getInPrecedence "*" = 4 ∧
      getInPrecedence "/" = 4 ∧ getInPrecedence "(" = 0) ∧
    (getOutPrecedence "+" = 1 ∧ getOutPrecedence "-" = 1 ∧ getOutPrecedence "*" = 3 ∧
      getOutPrecedence "/" = 3 ∧ getOutPrecedence "(" = 5 ∧ getOutPrecedence ")" = 0) ∧
    (∀ (token : List String) (st : List String × List String),
      convertLoop token ([], []) = .ok st → ")" ∉ st.1) := by
  refine ⟨by decide, by decide, ?_⟩
  intro token st h hmem
  exact ((wellFormedState_loop token _ st wellFormedState_init h).1 ")" hmem).2 rfl

/-- C19, witness: after the tokens [(, 1, +, 2, ), *] the operator stack holds no ). -/
theorem C19_precedence_table_witness :
    ")" ∉ (["*"], ["1", "2", "+"]).1 :=
  C19_precedence_table.2.2 ["(", "1", "+", "2", ")", "*"] (["*"], ["1", "2", "+"]) (by decide)

/-! ## What the converter keeps -/

theorem count_eq_zero_of_forall_ne (x : String) (l : List String) (h : ∀ t ∈ l, t ≠ x) :
    l.count x = 0 :=
  List.count_eq_zero.2 (fun hx => h x hx rfl)

theorem filter_operand_of_operators (l : List String) (h : ∀ t ∈ l, isOperator t = true) :
    l.filter (fun t => !isOperator t) = [] :=
  List.filter_eq_nil_iff.2 (fun t ht => by simp [h t ht])

/-- A step appends to the operands of the output the token read, if it is an operand. -/
theorem convertStep_operands (st st' : List String × List String) (s : String)
    (hwf : wellFormedState st) (h : convertStep st s = .ok st') :
    st'.2.filter (fun t => !isOperator t) =
      st.2.filter (fun t => !isOperator t) ++ [s].filter (fun t => !isOperator t) := by
  obtain ⟨stack, out⟩ := st
  obtain ⟨stack', out'⟩ := st'
  obtain ⟨hS, -⟩ := hwf
  simp only at hS
  rcases convertStep_cases stack out s stack' out' h with
    ⟨hop, h1, h2⟩ | ⟨hs, popped, h1, h2, h3⟩ | ⟨hop, hs, popped, rest, h1, h2, h3, h4⟩
  · subst h1 h2
    simp only [List.filter_append]
  · subst h1 h2 hs
    have hp : popped.filter (fun t => !isOperator t) = [] :=
      filter_operand_of_operators popped (fun t ht => (hS t (by simp [ht])).1)
    have hc : [")"].filter (fun t => !isOperator t) = [] := by decide
    simp only [List.filter_append, hp, hc]
  · subst h1 h2 h3
    have hp : popped.filter (fun t => !isOperator t) = [] :=
      filter_operand_of_operators popped (fun t ht => (hS t (by simp [ht])).1)
    have hc : [s].filter (fun t => !isOperator t) = [] :=
      filter_operand_of_operators [s] (fun t ht => by simp at ht; rw [ht]; exact hop)
    simp only [List.filter_append, hp, hc]

/-- A step changes the tokens other than parentheses held in output and stack together by
the token read only. -/
theorem convertStep_perm (st st' : List String × List String) (s : String)
    (h : convertStep st s = .ok st') :
    ((st'.2 ++ st'.1).filter (fun t => !isParenthesis t)).Perm
      ((st.2 ++ st.1).filter (fun t => !isParenthesis t) ++
        [s].filter (fun t => !isParenthesis t)) := by
  obtain ⟨stack, out⟩ := st
  obtain ⟨stack', out'⟩ := st'
  rcases convertStep_cases stack out s stack' out' h with
    ⟨hop, h1, h2⟩ | ⟨hs, popped, h1, h2, h3⟩ | ⟨hop, hs, popped, rest, h1, h2, h3, h4⟩
  · subst h1 h2
    simp only [List.filter_append, List.append_assoc]
    exact List.Perm.append_left _ List.perm_append_comm
  · subst h1 h2 hs
    have h1 : ["("].filter (fun t => !isParenthesis t) = [] := by decide
    have h2 : [")"].filter (fun t => !isParenthesis t) = [] := by decide
    have h3 : "(" :: stack' = ["("] ++ stack' := rfl
    rw [h3]
    simp only [List.filter_append, h1, h2, List.append_nil, List.nil_append, List.append_assoc]
    exact List.Perm.refl _
  · subst h1 h2 h3
    have h3 : s :: rest = [s] ++ rest := rfl
    rw [h3]
    simp only [List.filter_append, List.append_assoc]
    refine List.Perm.append_left _ (List.Perm.append_left _ ?_)
    exact List.perm_append_comm

/-- A step keeps the balance of parentheses: the ( on the stack plus the ) read are the ( on
the stack before plus the ( read. -/
theorem convertStep_count_open (st st' : List String × List String) (s : String)
    (h : convertStep st s = .ok st') :
    st'.1.count "(" + [s].count ")" = st.1.count "(" + [s].count "(" := by
  obtain ⟨stack, out⟩ := st
  obtain ⟨stack', out'⟩ := st'
  rcases convertStep_cases stack out s stack' out' h with
    ⟨hop, h1, h2⟩ | ⟨hs, popped, h1, h2, h3⟩ | ⟨hop, hs, popped, rest, h1, h2, h3, h4⟩
  · subst h1
    have hs1 : s ≠ "(" := by rintro rfl; revert hop; decide
    have hs2 : s ≠ ")" := by rintro rfl; revert hop; decide
    simp [List.count_cons, hs1, hs2]
  · subst h1 hs
    have hp := count_eq_zero_of_forall_ne "(" popped h3
    have hne : ¬ (")" = "(") := by decide
    simp only [List.count_append, hp, List.count_cons, List.count_nil, beq_self_eq_true,
      if_true, beq_iff_eq, hne, if_false]
    omega
  · subst h1 h2
    have hp := count_eq_zero_of_forall_ne "(" popped h4
    simp only [List.count_append, hp, List.count_cons, List.count_nil, beq_iff_eq, hs, if_false]
    omega

theorem convertLoop_keeps : ∀ (token : List String) (st st' : List String × List String),
    wellFormedState st → convertLoop token st = .ok st' →
    st'.2.filter (fun t => !isOperator t) =
      st.2.filter (fun t => !isOperator t) ++ token.filter (fun t => !isOperator t) ∧
    ((st'.2 ++ st'.1).filter (fun t => !isParenthesis t)).Perm
      ((st.2 ++ st.1).filter (fun t => !isParenthesis t) ++
        token.filter (fun t => !isParenthesis t)) ∧
    st'.1.count "(" + token.count ")" = st.1.count "(" + token.count "(" := by
  intro token
  induction token with
  | nil =>
    intro st st' _ h
    simp only [convertLoop, Except.ok.injEq] at h
    subst h
    simp
  | cons s rest ih =>
    intro st st' hwf h
    simp only [convertLoop] at h
    cases hstep : convertStep st s with
    | error e => rw [hstep] at h; simp at h
    | ok st1 =>
      rw [hstep] at h
      obtain ⟨i1, i2, i3⟩ := ih st1 st' (wellFormedState_step st st1 s hwf hstep) h
      have s1 := convertStep_operands st st1 s hwf hstep
      have s2 := convertStep_perm st st1 s hstep
      have s3 := convertStep_count_open st st1 s hstep
      have hcons : s :: rest = [s] ++ rest := rfl
      refine ⟨?_, ?_, ?_⟩
      · rw [i1, s1, hcons, List.filter_append, List.append_assoc]
      · have hf : (s :: rest).filter (fun t => !isParenthesis t) =
            [s].filter (fun t => !isParenthesis t) ++ rest.filter (fun t => !isParenthesis t) := by
          rw [hcons, List.filter_append]
        rw [hf, ← List.append_assoc]
        exact i2.trans (List.Perm.append_right _ s2)
      · rw [hcons, List.count_append, List.count_append]
        omega

theorem infixToPostfix_ok (token p : List String) (h : infixToPostfix token = .ok p) :
    ∃ stack out, convertLoop token ([], []) = .ok (stack, out) ∧ p = out ++ stack := by
  unfold infixToPostfix at h
  cases hl : convertLoop token ([], []) with
  | error e => rw [hl] at h; simp at h
  | ok st =>
    obtain ⟨stack, out⟩ := st
    rw [hl] at h
    simp only [popWhile_all, Except.ok.injEq] at h
    exact ⟨stack, out, rfl, h.symm⟩

/-- C20: for every token sequence that the converter accepts, the operands of the output are
the operands of the input in the same order and the output holds no ); when the parentheses
of the input match, the output holds no ( either and is a permutation of the tokens of the
input other than parentheses, so that each of + - * / occurs as often in the output as in
the input. -/
theorem C20_converter_rearranges (token p : List String) (h : infixToPostfix token = .ok p) :
    p.filter (fun t => !isOperator t) = token.filter (fun t => !isOperator t) ∧
    ")" ∉ p ∧
    (properlyNested token →
      "(" ∉ p ∧ p.Perm (token.filter (fun t => !isParenthesis t)) ∧
      ∀ op : BinOp, p.count op.token = token.count op.token) := by
  obtain ⟨stack, out, hloop, rfl⟩ := infixToPostfix_ok token p h
  obtain ⟨hS, hO⟩ := wellFormedState_loop token _ _ wellFormedState_init hloop
  obtain ⟨k1, k2, k3⟩ := convertLoop_keeps token _ _ wellFormedState_init hloop
  simp only [List.filter_nil, List.nil_append, List.append_nil, List.count_nil,
    Nat.zero_add] at k1 k2 k3 hS hO
  have hclose : ")" ∉ out ++ stack := by
    intro hmem
    rcases List.mem_append.1 hmem with hm | hm
    · exact (hO _ hm).2 rfl
    · exact (hS _ hm).2 rfl
  refine ⟨?_, hclose, ?_⟩
  · rw [List.filter_append, k1,
      filter_operand_of_operators stack (fun t ht => (hS t ht).1), List.append_nil]
  · rintro ⟨-, hbal⟩
    have hzero : stack.count "(" = 0 := by omega
    have hopen : "(" ∉ out ++ stack := by
      intro hmem
      rcases List.mem_append.1 hmem with hm | hm
      · exact (hO _ hm).1 rfl
      · exact List.count_eq_zero.1 hzero hm
    have hself : (out ++ stack).filter (fun t => !isParenthesis t) = out ++ stack := by
      apply List.filter_eq_self.2
      intro t ht
      have h1 : t ≠ "(" := fun h0 => hopen (h0 ▸ ht)
      have h2 : t ≠ ")" := fun h0 => hclose (h0 ▸ ht)
      simp [isParenthesis, h1, h2]
    rw [hself] at k2
    refine ⟨hopen, k2, ?_⟩
    intro op
    rw [k2.count_eq, List.count_filter]
    cases op <;> decide

/-- C20, witness: the converter turns [(, 1, +, 2, ), *, 3] into [1, 2, +, 3, *]. -/
theorem C20_converter_rearranges_witness :
    ["1", "2", "+", "3", "*"].filter (fun t => !isOperator t) =
      ["(", "1", "+", "2", ")", "*", "3"].filter (fun t => !isOperator t) ∧
    ")" ∉ ["1", "2", "+", "3", "*"] ∧
    (properlyNested ["(", "1", "+", "2", ")", "*", "3"] →
      "(" ∉ ["1", "2", "+", "3", "*"] ∧
      ["1", "2", "+", "3", "*"].Perm
        (["(", "1", "+", "2", ")", "*", "3"].filter (fun t => !isParenthesis t)) ∧
      ∀ op : BinOp, ["1", "2", "+", "3", "*"].count op.token =
        ["(", "1", "+", "2", ")", "*", "3"].count op.token) :=
  C20_converter_rearranges ["(", "1", "+", "2", ")", "*", "3"] ["1", "2", "+", "3", "*"]
    (by decide)

/-! ## The converter above an opening parenthesis -/

theorem takeWhile_append_barrier (p : String → Bool) (b : String) (hb : p b = false)
    (rest : List String) : ∀ top : List String,
    (top ++ b :: rest).takeWhile p = top.takeWhile p ∧
    (top ++ b :: rest).dropWhile p = top.dropWhile p ++ b :: rest := by
  intro top
  induction top with
  | nil => simp [List.takeWhile_cons, List.dropWhile_cons, hb]
  | cons t top ih =>
    by_cases ht : p t = true
    · simp only [List.cons_append, List.takeWhile_cons, List.dropWhile_cons, ht, if_true, ih,
        and_self]
    · simp only [List.cons_append, List.takeWhile_cons, List.dropWhile_cons, ht,
        Bool.false_eq_true, if_false, and_self]

/-- A step that succeeds on a stack succeeds in the same way when that stack lies on top of
an opening parenthesis and the output has something in front. -/
theorem convertStep_frame (top out top' out' below front : List String) (s : String)
    (h : convertStep (top, out) s = .ok (top', out')) :
    convertStep (top ++ "(" :: below, front ++ out) s =
      .ok (top' ++ "(" :: below, front ++ out') := by
  by_cases hop : isOperator s = true
  · by_cases hs : s = ")"
    · subst hs
      have hb : (fun t => decide (getInPrecedence t > getOutPrecedence ")")) "(" = false := by
        decide
      obtain ⟨e1, e2⟩ := takeWhile_append_barrier
        (fun t => decide (getInPrecedence t > getOutPrecedence ")")) "(" hb below top
      simp only [convertStep, hop, if_true, popWhile_eq] at h ⊢
      rw [e1, e2]
      cases hd : top.dropWhile (fun t => decide (getInPrecedence t > getOutPrecedence ")"))
        with
      | nil => rw [hd] at h; simp at h
      | cons t rest =>
        rw [hd] at h
        simp only [Except.ok.injEq, Prod.mk.injEq] at h
        simp only [List.cons_append, ← h.1, ← h.2, List.append_assoc]
    · have hb : (fun t => decide (getInPrecedence t ≥ getOutPrecedence s)) "(" = false := by
        have h0 : getInPrecedence "(" = 0 := by decide
        have := getOutPrecedence_pos s hs
        simp only [h0, ge_iff_le, decide_eq_false_iff_not, not_le]
        exact this
      obtain ⟨e1, e2⟩ := takeWhile_append_barrier
        (fun t => decide (getInPrecedence t ≥ getOutPrecedence s)) "(" hb below top
      simp only [convertStep, hop, if_true, hs, if_false, popWhile_eq, Except.ok.injEq,
        Prod.mk.injEq] at h ⊢
      rw [e1, e2, ← h.1, ← h.2]
      simp
  · simp only [Bool.not_eq_true] at hop
    simp only [convertStep, hop, Bool.false_eq_true, if_false, Except.ok.injEq,
      Prod.mk.injEq] at h ⊢
    rw [← h.1, ← h.2]
    simp

theorem convertLoop_frame : ∀ (token top out top' out' : List String)
    (below front : List String), convertLoop token (top, out) = .ok (top', out') →
    convertLoop token (top ++ "(" :: below, front ++ out) =
      .ok (top' ++ "(" :: below, front ++ out') := by
  intro token
  induction token with
  | nil =>
    intro top out top' out' below front h
    simp only [convertLoop, Except.ok.injEq, Prod.mk.injEq] at h
    simp only [convertLoop, h.1, h.2]
  | cons s rest ih =>
    intro top out top' out' below front h
    simp only [convertLoop] at h
    cases hstep : convertStep (top, out) s with
    | error e => rw [hstep] at h; simp at h
    | ok st1 =>
      obtain ⟨top1, out1⟩ := st1
      rw [hstep] at h
      simp only [convertLoop, convertStep_frame top out top1 out1 below front s hstep]
      exact ih top1 out1 top' out' below front h

/-- A closing parenthesis moves the operators above the topmost ( to the output and drops
that (. -/
theorem convertStep_close_at (popped rest out : List String) (h : ∀ t ∈ popped, t ≠ "(") :
    convertStep (popped ++ "(" :: rest, out) ")" = .ok (rest, out ++ popped) := by
  have hop : isOperator ")" = true := by decide
  have hall : ∀ t ∈ popped,
      (fun t => decide (getInPrecedence t > getOutPrecedence ")")) t = true := by
    intro t ht
    have h0 : getOutPrecedence ")" = 0 := by decide
    have := getInPrecedence_pos t (h t ht)
    simp only [h0, gt_iff_lt, decide_eq_true_eq]
    exact this
  have hb : (fun t => decide (getInPrecedence t > getOutPrecedence ")")) "(" = false := by
    decide
  obtain ⟨e1, e2⟩ := takeWhile_append_barrier
    (fun t => decide (getInPrecedence t > getOutPrecedence ")")) "(" hb rest popped
  simp only [convertStep, hop, if_true, popWhile_eq, e1, e2,
    List.takeWhile_eq_self_iff.2 hall, List.dropWhile_eq_nil_iff.2 hall, List.nil_append]

/-- C18: for every token sequence w with matching parentheses, every operator stack S and
every output O, the steps of the converter over ( w ) from the state (S, O) end with the
stack S and the output O followed by the conversion of w. A step for a token other than )
removes no ( from the stack and puts none into the output; a step for ) removes exactly one
( from the stack and puts none into the output. -/
theorem C18_matching_parenthesis :
    (∀ (w stack out : List String), properlyNested w →
      ∃ p, infixToPostfix w = .ok p ∧
        convertLoop ("(" :: (w ++ [")"])) (stack, out) = .ok (stack, out ++ p)) ∧
    (∀ (stack out stack' out' : List String) (s : String), s ≠ ")" →
      convertStep (stack, out) s = .ok (stack', out') →
      stack.count "(" ≤ stack'.count "(" ∧ out'.count "(" = out.count "(") ∧
    (∀ (stack out stack' out' : List String),
      convertStep (stack, out) ")" = .ok (stack', out') →
      stack'.count "(" + 1 = stack.count "(" ∧ out'.count "(" = out.count "(") := by
  refine ⟨?_, ?_, ?_⟩
  · intro w stack out hnest
    obtain ⟨st, hst⟩ := (convertLoop_unmatched w [] []).2 (by simpa using hnest.1)
    obtain ⟨top, outw⟩ := st
    obtain ⟨-, -, k3⟩ := convertLoop_keeps w _ _ wellFormedState_init hst
    simp only [List.count_nil, Nat.zero_add] at k3
    have hzero : top.count "(" = 0 := by have := hnest.2; omega
    have hframe := convertLoop_frame w [] [] top outw stack out hst
    simp only [List.nil_append, List.append_nil] at hframe
    refine ⟨outw ++ top, by simp only [infixToPostfix, hst, popWhile_all], ?_⟩
    simp only [convertLoop, convertStep_open, convertLoop_append, hframe]
    rw [convertStep_close_at top stack (out ++ outw)
      (fun t ht h0 => List.count_eq_zero.1 hzero (h0 ▸ ht)), List.append_assoc]
  · intro stack out stack' out' s hs h
    rcases convertStep_cases stack out s stack' out' h with
      ⟨hop, h1, h2⟩ | ⟨hs', _⟩ | ⟨hop, _, popped, rest, h1, h2, h3, h4⟩
    · subst h1 h2
      have hs1 : s ≠ "(" := by rintro rfl; revert hop; decide
      simp [List.count_cons, hs1]
    · exact absurd hs' hs
    · subst h1 h2 h3
      have hp := count_eq_zero_of_forall_ne "(" popped h4
      simp only [List.count_append, hp, List.count_cons]
      omega
  · intro stack out stack' out' h
    rcases convertStep_cases stack out ")" stack' out' h with
      ⟨hop, _⟩ | ⟨_, popped, h1, h2, h3⟩ | ⟨_, hs, _⟩
    · exact absurd hop (by decide)
    · subst h1 h2
      have hp := count_eq_zero_of_forall_ne "(" popped h3
      simp [List.count_append, hp]
    · exact absurd rfl hs

/-- C18, witness: over ( ( 1 ) + 2 ) from the stack [*] and the output [3] the converter
comes back to the stack [*] with the output [3] followed by the conversion of ( 1 ) + 2. -/
theorem C18_matching_parenthesis_witness :
    ∃ p, infixToPostfix ["(", "1", ")", "+", "2"] = .ok p ∧
      convertLoop ("(" :: (["(", "1", ")", "+", "2"] ++ [")"])) (["*"], ["3"]) =
        .ok (["*"], ["3"] ++ p) :=
  C18_matching_parenthesis.1 ["(", "1", ")", "+", "2"] ["*"] ["3"]
    ⟨by
      intro n
      rcases n with _ | _ | _ | _ | _ | n
      · decide
      · decide
      · decide
      · decide
      · decide
      · rw [List.take_of_length_le (by simp)]; decide,
     by decide⟩

/-! ## The converter on the sequences of the grammar -/

theorem popWhile_append (p : String → Bool) (popped stack out : List String)
    (hp : ∀ t ∈ popped, p t = true) (hs : ∀ t rest, stack = t :: rest → p t = false) :
    popWhile p (popped ++ stack) out = (stack, out ++ popped) := by
  rw [popWhile_eq, List.takeWhile_append_of_pos hp, List.dropWhile_append_of_pos hp]
  cases stack with
  | nil => simp
  | cons t rest =>
    have := hs t rest rfl
    simp [List.takeWhile_cons, List.dropWhile_cons, this]

theorem binOp_precedence (op : BinOp) :
    isOperator op.token = true ∧ op.token ≠ ")" ∧ op.token ≠ "(" ∧
    getOutPrecedence op.token = (if op.additive then 1 else 3) ∧
    getInPrecedence op.token = (if op.additive then 2 else 4) := by
  cases op <;> decide

/-- A binary operator pops the operators above a top of lower precedence and is pushed. -/
theorem convertStep_binOp (op : BinOp) (popped stack out : List String)
    (hp : ∀ t ∈ popped, getOutPrecedence op.token ≤ getInPrecedence t)
    (hs : lowHead (getOutPrecedence op.token) stack) :
    convertStep (popped ++ stack, out) op.token = .ok (op.token :: stack, out ++ popped) := by
  obtain ⟨h1, h2, -, -, -⟩ := binOp_precedence op
  simp only [convertStep, h1, if_true, h2, if_false]
  rw [popWhile_append _ popped stack out (fun t ht => by simpa using hp t ht)
    (fun t rest hst => by simpa using hs t rest hst)]

theorem levelPrecedence_le (level : Nat) (h : level ≤ 1) : levelPrecedence level ≤ 3 := by
  rcases level with _ | _ | n
  · decide
  · decide
  · omega

/-- The converter on the tokens of a derivation of some level, above a stack whose top has
a lower precedence than the operators that may follow: the operators still pending lie on
the stack, and output and pending operators together are the postorder sequence. -/
theorem convertLoop_derives : ∀ (s : Parse) (level : Nat), s.derives false level →
    ∀ (stack out : List String), lowHead (levelPrecedence level) stack →
    ∃ pending done, convertLoop s.tokens (stack, out) = .ok (pending ++ stack, out ++ done) ∧
      done ++ pending = s.tree.postorder ∧
      ∀ t ∈ pending, levelPrecedence level ≤ getInPrecedence t := by
  intro s
  induction s with
  | lit n =>
    intro level _ stack out _
    refine ⟨[], [literal n], ?_, rfl, by simp⟩
    simp only [Parse.tokens, convertLoop, convertStep_literal, List.nil_append]
  | paren e ih =>
    intro level hd stack out _
    have hlow : lowHead (levelPrecedence 0) ("(" :: stack) := by
      intro t rest h
      simp only [List.cons.injEq] at h
      rw [← h.1]; decide
    obtain ⟨pending, done, hloop, hpost, hpend⟩ := ih 0 hd ("(" :: stack) out hlow
    refine ⟨[], done ++ pending, ?_, by simpa [Parse.tree] using hpost, by simp⟩
    have hne : ∀ t ∈ pending, t ≠ "(" := by
      intro t ht h0
      have := hpend t ht
      rw [h0] at this
      revert this; decide
    rw [Parse.tokens]
    simp only [convertLoop, convertStep_open, convertLoop_append, hloop,
      convertStep_close_at pending stack (out ++ done) hne, List.nil_append, List.append_assoc]
  | unclosed e _ =>
    intro level hd
    exact absurd hd.1 (by decide)
  | bin op l r ihl ihr =>
    intro level hd stack out hlow
    obtain ⟨-, -, -, hout, hin⟩ := binOp_precedence op
    rw [Parse.derives] at hd
    by_cases hadd : op.additive = true
    · rw [if_pos hadd] at hd
      obtain ⟨hlevel, hdl, hdr⟩ := hd
      subst hlevel
      rw [if_pos hadd] at hout hin
      obtain ⟨pl, dl, hloopl, hpostl, hpendl⟩ := ihl 0 hdl stack out hlow
      have hstep := convertStep_binOp op pl stack (out ++ dl)
        (fun t ht => by rw [hout]; exact hpendl t ht) (by rw [hout]; exact hlow)
      have hlow' : lowHead (levelPrecedence 1) (op.token :: stack) := by
        intro t rest h
        simp only [List.cons.injEq] at h
        rw [← h.1, hin]; decide
      obtain ⟨pr, dr, hloopr, hpostr, hpendr⟩ :=
        ihr 1 hdr (op.token :: stack) (out ++ dl ++ pl) hlow'
      refine ⟨pr ++ [op.token], dl ++ pl ++ dr, ?_, ?_, ?_⟩
      · rw [Parse.tokens]
        simp only [List.append_assoc] at hloopr
        simp only [convertLoop_append, hloopl, convertLoop, hstep, List.append_assoc,
          List.singleton_append, hloopr]
      · rw [Parse.tree, Tree.postorder, ← hpostl, ← hpostr]
        simp only [List.append_assoc]
      · intro t ht
        rcases List.mem_append.1 ht with ht | ht
        · have := hpendr t ht
          have h13 : levelPrecedence 0 ≤ levelPrecedence 1 := by decide
          omega
        · simp only [List.mem_singleton] at ht
          rw [ht, hin]; decide
    · rw [if_neg hadd] at hd hout hin
      obtain ⟨hlevel, hdl, hdr⟩ := hd
      have hk := levelPrecedence_le level hlevel
      have hlow1 : lowHead (levelPrecedence 1) stack := by
        intro t rest h
        have := hlow t rest h
        have h3 : levelPrecedence 1 = 3 := rfl
        omega
      obtain ⟨pl, dl, hloopl, hpostl, hpendl⟩ := ihl 1 hdl stack out hlow1
      have hstep := convertStep_binOp op pl stack (out ++ dl)
        (fun t ht => by rw [hout]; exact hpendl t ht) (by rw [hout]; exact hlow1)
      have hlow' : lowHead (levelPrecedence 2) (op.token :: stack) := by
        intro t rest h
        simp only [List.cons.injEq] at h
        rw [← h.1, hin]; decide
      obtain ⟨pr, dr, hloopr, hpostr, hpendr⟩ :=
        ihr 2 hdr (op.token :: stack) (out ++ dl ++ pl) hlow'
      refine ⟨pr ++ [op.token], dl ++ pl ++ dr, ?_, ?_, ?_⟩
      · rw [Parse.tokens]
        simp only [List.append_assoc] at hloopr
        simp only [convertLoop_append, hloopl, convertLoop, hstep, List.append_assoc,
          List.singleton_append, hloopr]
      · rw [Parse.tree, Tree.postorder, ← hpostl, ← hpostr]
        simp only [List.append_assoc]
      · intro t ht
        rcases List.mem_append.1 ht with ht | ht
        · have := hpendr t ht
          have h5 : levelPrecedence 2 = 5 := rfl
          omega
        · simp only [List.mem_singleton] at ht
          rw [ht, hin]; omega

theorem postorder_no_parenthesis (e : Tree) : ∀ t ∈ e.postorder, t ≠ "(" ∧ t ≠ ")" := by
  induction e with
  | lit n =>
    intro t ht
    simp only [Tree.postorder, List.mem_singleton] at ht
    subst ht
    have := isOperator_literal n
    constructor <;> (intro h; rw [h] at this; revert this; decide)
  | node op l r ihl ihr =>
    intro t ht
    simp only [Tree.postorder, List.mem_append, List.mem_singleton] at ht
    rcases ht with ht | ht | ht
    · exact ihl t ht
    · exact ihr t ht
    · subst ht
      obtain ⟨-, h2, h3, -, -⟩ := binOp_precedence op
      exact ⟨h3, h2⟩

/-- C17: for every token sequence generated by the grammar expr := term ((+|-) term)*,
term := factor ((*|/) factor)*, factor := integer | ( expr ), the converter returns exactly
the postorder sequence (left operand, right operand, operator) of the parse tree, in which *
and / bind tighter than + and - and operators of one tier nest to the left; that output
holds no parenthesis. -/
theorem C17_converter_gives_postorder (s : Parse) (h : s.derives false 0) :
    infixToPostfix s.tokens = .ok s.tree.postorder ∧
    (∀ t ∈ s.tree.postorder, t ≠ "(" ∧ t ≠ ")") := by
  refine ⟨?_, postorder_no_parenthesis s.tree⟩
  obtain ⟨pending, done, hloop, hpost, -⟩ :=
    convertLoop_derives s 0 h [] [] (by intro t rest h0; cases h0)
  simp only [List.append_nil, List.nil_append] at hloop
  simp only [infixToPostfix, hloop, popWhile_all, hpost]

/-- C17, witness: 1 - 2 * ( 3 + 4 ) / 5 - 6 converts to 1 2 3 4 + * 5 / - 6 -. -/
theorem C17_converter_gives_postorder_witness :
    infixToPostfix ["1", "-", "2", "*", "(", "3", "+", "4", ")", "/", "5", "-", "6"] =
      .ok ["1", "2", "3", "4", "+", "*", "5", "/", "-", "6", "-"] :=
  (C17_converter_gives_postorder
    (.bin .sub
      (.bin .sub (.lit 1)
        (.bin .div (.bin .mul (.lit 2) (.paren (.bin .add (.lit 3) (.lit 4)))) (.lit 5)))
      (.lit 6))
    (by simp [Parse.derives, BinOp.additive])).1

/-! ## Parentheses that are never closed -/

theorem count_parenthesis_literal (n : Int) :
    [literal n].count "(" = 0 ∧ [literal n].count ")" = 0 := by
  have h := isOperator_literal n
  have h1 : literal n ≠ "(" := by intro h0; rw [h0] at h; revert h; decide
  have h2 : literal n ≠ ")" := by intro h0; rw [h0] at h; revert h; decide
  simp [List.count_cons, h1, h2]

theorem count_parenthesis_binOp (op : BinOp) :
    [op.token].count "(" = 0 ∧ [op.token].count ")" = 0 := by
  cases op <;> decide

/-- The tokens of a derivation have as many ( as ) and unclosed parentheses together. -/
theorem tokens_count_open : ∀ s : Parse,
    s.tokens.count "(" = s.tokens.count ")" + s.unclosedCount := by
  intro s
  induction s with
  | lit n =>
    obtain ⟨h1, h2⟩ := count_parenthesis_literal n
    simp only [Parse.tokens, Parse.unclosedCount, h1, h2]
  | paren e ih =>
    have h1 : ("(" :: (e.tokens ++ [")"])).count "(" = e.tokens.count "(" + 1 := by
      rw [List.count_cons, List.count_append]; simp
    have h2 : ("(" :: (e.tokens ++ [")"])).count ")" = e.tokens.count ")" + 1 := by
      rw [List.count_cons, List.count_append]; simp
    rw [Parse.tokens, Parse.unclosedCount, h1, h2, ih]; omega
  | unclosed e ih =>
    have h1 : ("(" :: e.tokens).count "(" = e.tokens.count "(" + 1 := by
      rw [List.count_cons]; simp
    have h2 : ("(" :: e.tokens).count ")" = e.tokens.count ")" := by
      rw [List.count_cons]; simp
    rw [Parse.tokens, Parse.unclosedCount, h1, h2, ih]; omega
  | bin op l r ihl ihr =>
    obtain ⟨h1, h2⟩ := count_parenthesis_binOp op
    have hc : op.token :: r.tokens = [op.token] ++ r.tokens := rfl
    rw [Parse.tokens, Parse.unclosedCount, hc]
    simp only [List.count_append, h1, h2, ihl, ihr]
    omega

/-- The tokens of a derivation have one operand more than binary operators. -/
theorem tokens_operands : ∀ s : Parse,
    s.tokens.countP (fun t => !isOperator t) =
      s.tokens.countP (fun t => isOperator t && !isParenthesis t) + 1 := by
  intro s
  induction s with
  | lit n =>
    have h := isOperator_literal n
    simp [Parse.tokens, List.countP_cons, h]
  | paren e ih =>
    have hc : "(" :: (e.tokens ++ [")"]) = ["("] ++ (e.tokens ++ [")"]) := rfl
    have a1 : ["("].countP (fun t => !isOperator t) = 0 := by decide
    have a2 : [")"].countP (fun t => !isOperator t) = 0 := by decide
    have a3 : ["("].countP (fun t => isOperator t && !isParenthesis t) = 0 := by decide
    have a4 : [")"].countP (fun t => isOperator t && !isParenthesis t) = 0 := by decide
    rw [Parse.tokens, hc]
    simp only [List.countP_append, a1, a2, a3, a4, ih]
    omega
  | unclosed e ih =>
    have hc : "(" :: e.tokens = ["("] ++ e.tokens := rfl
    have a1 : ["("].countP (fun t => !isOperator t) = 0 := by decide
    have a3 : ["("].countP (fun t => isOperator t && !isParenthesis t) = 0 := by decide
    rw [Parse.tokens, hc]
    simp only [List.countP_append, a1, a3, ih]
    omega
  | bin op l r ihl ihr =>
    have hc : op.token :: r.tokens = [op.token] ++ r.tokens := rfl
    have a1 : [op.token].countP (fun t => !isOperator t) = 0 := by cases op <;> decide
    have a3 : [op.token].countP (fun t => isOperator t && !isParenthesis t) = 1 := by
      cases op <;> decide
    rw [Parse.tokens, hc]
    simp only [List.countP_append, a1, a3, ihl, ihr]
    omega

/-- A run keeps the balance of parentheses, whatever the state it starts from. -/
theorem convertLoop_count : ∀ (token : List String) (st st' : List String × List String),
    convertLoop token st = .ok st' →
    st'.1.count "(" + token.count ")" = st.1.count "(" + token.count "(" := by
  intro token
  induction token with
  | nil =>
    intro st st' h
    simp only [convertLoop, Except.ok.injEq] at h
    subst h
    simp
  | cons s rest ih =>
    intro st st' h
    simp only [convertLoop] at h
    cases hstep : convertStep st s with
    | error e => rw [hstep] at h; simp at h
    | ok st1 =>
      rw [hstep] at h
      have i3 := ih st1 st' h
      have s3 := convertStep_count_open st st1 s hstep
      have hcons : s :: rest = [s] ++ rest := rfl
      rw [hcons, List.count_append, List.count_append]
      omega

/-- The converter accepts the tokens of a derivation, closed or not, from every state. -/
theorem convertLoop_derives_ok : ∀ (s : Parse) (st : List String × List String),
    ∃ st', convertLoop s.tokens st = .ok st' := by
  intro s
  induction s with
  | lit n =>
    intro st
    exact ⟨(st.1, st.2 ++ [literal n]),
      by simp only [Parse.tokens, convertLoop, convertStep_literal]⟩
  | paren e ih =>
    intro st
    obtain ⟨stack, out⟩ := st
    obtain ⟨st1, h1⟩ := ih ("(" :: stack, out)
    have hwfless := convertLoop_count e.tokens ("(" :: stack, out) st1 h1
    have hbal := tokens_count_open e
    have hpos : 0 < st1.1.count "(" := by
      simp only [List.count_cons_self] at hwfless
      omega
    obtain ⟨stack', out', hstep, -⟩ := convertStep_close_ok st1.1 st1.2 hpos
    refine ⟨(stack', out'), ?_⟩
    rw [Parse.tokens]
    simp only [convertLoop, convertStep_open, convertLoop_append, h1, hstep]
  | unclosed e ih =>
    intro st
    obtain ⟨stack, out⟩ := st
    obtain ⟨st1, h1⟩ := ih ("(" :: stack, out)
    refine ⟨st1, ?_⟩
    rw [Parse.tokens]
    simp only [convertLoop, convertStep_open, h1]
  | bin op l r ihl ihr =>
    intro st
    obtain ⟨st1, h1⟩ := ihl st
    obtain ⟨-, hne, -, -, -⟩ := binOp_precedence op
    obtain ⟨stack', out', hstep, -⟩ := convertStep_other_ok st1.1 st1.2 op.token hne
    obtain ⟨st2, h2⟩ := ihr (stack', out')
    refine ⟨st2, ?_⟩
    rw [Parse.tokens]
    simp only [convertLoop_append, h1, convertLoop, hstep, h2]

/-- An operator token takes one value from the operand stack, an operand adds one. -/
theorem evaluateLoop_length : ∀ (p : List String) (opStack opStack' : List Int),
    evaluateLoop p opStack = .ok opStack' →
    opStack'.length + p.countP (fun t => isOperator t) =
      opStack.length + p.countP (fun t => !isOperator t) := by
  intro p
  induction p with
  | nil =>
    intro opStack opStack' h
    simp only [evaluateLoop, Except.ok.injEq] at h
    subst h
    simp
  | cons s rest ih =>
    intro opStack opStack' h
    simp only [evaluateLoop] at h
    cases hstep : evaluateStep opStack s with
    | error e => rw [hstep] at h; simp at h
    | ok st1 =>
      rw [hstep] at h
      have i := ih st1 opStack' h
      by_cases hop : isOperator s = true
      · have hlen : st1.length + 1 = opStack.length := by
          simp only [evaluateStep, hop, if_true] at hstep
          match opStack, hstep with
          | [], hs => simp at hs
          | [_], hs => simp at hs
          | a :: b :: tl, hs =>
            cases ho : Operation a b s with
            | error e => simp [ho] at hs
            | ok v =>
              simp only [ho, Except.ok.injEq] at hs
              rw [← hs]; simp
        simp only [List.countP_cons, hop, if_true, Bool.not_true, Bool.false_eq_true, if_false]
        omega
      · simp only [Bool.not_eq_true] at hop
        have hlen : st1.length = opStack.length + 1 := by
          simp only [evaluateStep, hop, Bool.false_eq_true, if_false] at hstep
          cases hs : stoi s with
          | error e => rw [hs] at hstep; simp at hstep
          | ok v =>
            rw [hs] at hstep
            simp only [Except.ok.injEq] at hstep
            rw [← hstep]; simp
        simp only [List.countP_cons, hop, Bool.false_eq_true, if_false, Bool.not_false, if_true]
        omega

/-- A sequence with at least as many operator tokens as operands does not evaluate to an
integer. -/
theorem evaluate_fails_of_count (p : List String)
    (h : p.countP (fun t => !isOperator t) ≤ p.countP (fun t => isOperator t)) :
    ∃ e, evaluate p = .error e := by
  unfold evaluate
  cases hl : evaluateLoop p [] with
  | error e => exact ⟨e, rfl⟩
  | ok opStack =>
    have := evaluateLoop_length p [] opStack hl
    cases opStack with
    | nil => exact ⟨.stackUnderflow, rfl⟩
    | cons v tl =>
      simp only [List.length_cons, List.length_nil] at this
      omega

theorem countP_operator_ge (l : List String) :
    l.countP (fun t => isOperator t && !isParenthesis t) + l.count "(" ≤
      l.countP (fun t => isOperator t) := by
  induction l with
  | nil => simp
  | cons t rest ih =>
    by_cases ht : t = "("
    · subst ht
      have h1 : isOperator "(" = true := by decide
      have h2 : isParenthesis "(" = true := by decide
      simp only [List.countP_cons, List.count_cons, h1, h2, if_true, Bool.false_eq_true,
        if_false, beq_self_eq_true, Bool.true_and, Bool.not_true]
      omega
    · have hb : (t == "(") = false := by simpa using ht
      by_cases hop : isOperator t = true
      · simp only [List.countP_cons, List.count_cons, hop, Bool.true_and, hb,
          Bool.false_eq_true, if_false, if_true]
        split_ifs <;> omega
      · simp only [Bool.not_eq_true] at hop
        simp only [List.countP_cons, List.count_cons, hop, Bool.false_and, hb,
          Bool.false_eq_true, if_false]
        omega

end calculator
